import Mathlib

/-!
Verification of the block-list memory allocator in
`src/demos/memory-allocator/allocator.js` (class `MemoryAllocator`).

The JavaScript class is shallowly embedded as a pure state-passing
transition system over `AllocatorState`.  JS numbers that the claims
restrict to non-negative integers (sizes, offsets, allocation ids) are
modelled as `Nat`; the fragmentation percentage, computed with JS float
division, is modelled exactly over `ℚ`.  A block's `id` field, which the
source sets to `null` on free blocks, is modelled as `Option Nat`.
The `timestamp: Date.now()` field of allocation records is an
environment input that no claim mentions and is omitted from the model.

Loops of the source that are not structural recursions are embedded as
fuelled step functions mirroring the loop body literally
(`nextFitLoop` for the `do/while` in `nextFit`, `mergeLoop` for the
index loop in `mergeAdjacentFreeBlocks`); `none` means the fuel ran
out.  Theorems below show the chosen fuel always suffices and relate
`mergeLoop` to the recursive function `mergeGo` used by the operations.
An out-of-bounds array read (`this.blocks[i]` yielding `undefined`,
so that the subsequent field access throws a TypeError) is modelled by
the explicit outcome `SearchOutcome.crash`, and by `allocate`
returning `none`.
-/

/-- A memory block: `{ start, size, allocated, id }` in the source.
Free blocks carry `id = none` (JS `null`). -/
structure Block where
  start : Nat
  size : Nat
  allocated : Bool
  id : Option Nat
deriving DecidableEq

/-- The four placement strategies (`this.strategy` strings in the source). -/
inductive Strategy where
  | firstFit
  | bestFit
  | worstFit
  | nextFit
deriving DecidableEq

/-- An allocation history record `{ id, size, freed }` (timestamp omitted,
see the module comment). -/
structure Allocation where
  id : Nat
  size : Nat
  freed : Bool
deriving DecidableEq

/-- The fields of the `MemoryAllocator` class. -/
structure AllocatorState where
  totalSize : Nat
  blocks : List Block
  allocations : List Allocation
  nextId : Nat
  strategy : Strategy
  lastSearchIndex : Nat
deriving DecidableEq

/-- Outcome of a placement search: the found block index, the
not-found sentinel (`-1` in the source), or a thrown TypeError from
reading a field of `undefined` after an out-of-bounds access. -/
inductive SearchOutcome where
  | found (i : Nat)
  | notFound
  | crash
deriving DecidableEq

namespace MemoryAllocator

/-- `constructor(totalSize)`. -/
def init (totalSize : Nat) : AllocatorState :=
  { totalSize := totalSize
    blocks := [⟨0, totalSize, false, none⟩]
    allocations := []
    nextId := 1
    strategy := .firstFit
    lastSearchIndex := 0 }

/-- `setStrategy(strategy)`. -/
def setStrategy (strategy : Strategy) (s : AllocatorState) : AllocatorState :=
  { s with strategy := strategy, lastSearchIndex := 0 }

/-- `firstFit(size)`: `this.blocks.findIndex(b => !b.allocated && b.size >= size)`. -/
def firstFit (size : Nat) : List Block → Option Nat
  | [] => none
  | b :: rest =>
    if b.allocated = false ∧ size ≤ b.size then some 0
    else (firstFit size rest).map (· + 1)

/-- Loop of `bestFit(size)`.  The accumulator holds the current
`(bestIndex, bestSize)`; `none` is the initial
`bestIndex = -1, bestSize = Infinity` (any eligible block beats it). -/
def bestFitGo (size : Nat) : List Block → Nat → Option (Nat × Nat) → Option Nat
  | [], _, acc => acc.map Prod.fst
  | b :: rest, i, acc =>
    if b.allocated = false ∧ size ≤ b.size ∧
        (∀ p ∈ acc, b.size < p.2) then
      bestFitGo size rest (i + 1) (some (i, b.size))
    else
      bestFitGo size rest (i + 1) acc

/-- `bestFit(size)`. -/
def bestFit (size : Nat) (blocks : List Block) : Option Nat :=
  bestFitGo size blocks 0 none

/-- Loop of `worstFit(size)`.  `none` is the initial
`worstIndex = -1, worstSize = -1` (any eligible block beats it). -/
def worstFitGo (size : Nat) : List Block → Nat → Option (Nat × Nat) → Option Nat
  | [], _, acc => acc.map Prod.fst
  | b :: rest, i, acc =>
    if b.allocated = false ∧ size ≤ b.size ∧
        (∀ p ∈ acc, p.2 < b.size) then
      worstFitGo size rest (i + 1) (some (i, b.size))
    else
      worstFitGo size rest (i + 1) acc

/-- `worstFit(size)`. -/
def worstFit (size : Nat) (blocks : List Block) : Option Nat :=
  worstFitGo size blocks 0 none

/-- The `do { ... } while (currentIndex !== startIndex)` loop of
`nextFit(size)`, with explicit fuel (`none` = fuel exhausted).  Each
body reads `this.blocks[currentIndex]`; when that index is out of
bounds the field access on `undefined` throws (`.crash`). -/
def nextFitLoop (bs : List Block) (size startIndex : Nat) :
    Nat → Nat → Option SearchOutcome
  | 0, _ => none
  | fuel + 1, cur =>
    match bs[cur]? with
    | none => some .crash
    | some b =>
      if b.allocated = false ∧ size ≤ b.size then some (.found cur)
      else if (cur + 1) % bs.length = startIndex then some .notFound
      else nextFitLoop bs size startIndex fuel ((cur + 1) % bs.length)

/-- `nextFit(size)`: runs the loop from `this.lastSearchIndex` with
fuel `blocks.length + 1`, which theorem `nextFitLoop_terminates`
proves is always enough, so the `none` fallback is unreachable. -/
def nextFit (s : AllocatorState) (size : Nat) : SearchOutcome :=
  match nextFitLoop s.blocks size s.lastSearchIndex
      (s.blocks.length + 1) s.lastSearchIndex with
  | some r => r
  | none => .crash

/-- The `switch (this.strategy)` dispatch at the top of `allocate`. -/
def searchBlock (s : AllocatorState) (size : Nat) : SearchOutcome :=
  match s.strategy with
  | .firstFit =>
    match firstFit size s.blocks with
    | some i => .found i
    | none => .notFound
  | .bestFit =>
    match bestFit size s.blocks with
    | some i => .found i
    | none => .notFound
  | .worstFit =>
    match worstFit size s.blocks with
    | some i => .found i
    | none => .notFound
  | .nextFit => nextFit s size

/-- Recursive form of the `mergeAdjacentFreeBlocks` loop: merge the two
leading blocks while both are free, otherwise keep the head and
continue.  The fuel is structural; `length` fuel always suffices
because every step shortens the list. -/
def mergeGo : Nat → List Block → List Block
  | fuel + 1, a :: b :: rest =>
    if a.allocated = false ∧ b.allocated = false then
      mergeGo fuel ({ a with size := a.size + b.size } :: rest)
    else
      a :: mergeGo fuel (b :: rest)
  | _, l => l

/-- `mergeAdjacentFreeBlocks()`.  Theorem `mergeLoop_eq_mergeGo`
relates this recursive form to `mergeLoop`, the literal embedding of
the source's index loop. -/
def mergeAdjacentFreeBlocks (bs : List Block) : List Block :=
  mergeGo bs.length bs

/-- Literal embedding of the `for (let i = 0; ...)` loop of
`mergeAdjacentFreeBlocks`, with the `splice(i + 1, 1)` and `i--`
steps written out: state is the index `i` and the current array. -/
def mergeLoop : Nat → Nat → List Block → Option (List Block)
  | 0, _, _ => none
  | fuel + 1, i, bs =>
    if i + 1 < bs.length then
      match bs[i]?, bs[i + 1]? with
      | some c, some n =>
        if c.allocated = false ∧ n.allocated = false then
          mergeLoop fuel i
            (bs.take i ++ { c with size := c.size + n.size } :: bs.drop (i + 2))
        else
          mergeLoop fuel (i + 1) bs
      | _, _ => none
    else
      some bs

/-- First phase of `free(allocationId)`: find the first block whose
`id` field equals the argument (`findIndex(b => b.id === allocationId)`)
and clear its `allocated`/`id` fields; `none` when no block matches. -/
def freeBlocks (aid : Option Nat) : List Block → Option (List Block)
  | [] => none
  | b :: rest =>
    if b.id = aid then some ({ b with allocated := false, id := none } :: rest)
    else (freeBlocks aid rest).map (b :: ·)

/-- `this.allocations.find(a => a.id === allocationId)` followed by
`allocation.freed = true`: marks the first matching record freed. -/
def markFreed (aid : Option Nat) : List Allocation → List Allocation
  | [] => []
  | a :: rest =>
    if some a.id = aid then { a with freed := true } :: rest
    else a :: markFreed aid rest

/-- `free(allocationId)`: returns the JS boolean result together with
the state after the call. -/
def free (aid : Option Nat) (s : AllocatorState) : Bool × AllocatorState :=
  match freeBlocks aid s.blocks with
  | none => (false, s)
  | some bs1 =>
    (true, { s with blocks := mergeAdjacentFreeBlocks bs1,
                    allocations := markFreed aid s.allocations })

/-- `allocate(size)`: `none` models a thrown TypeError (only possible
via `nextFit` reading past the end of `blocks`); `some (none, s)` is
the `return null` failure; `some (some id, s')` is success.  The
`splice(blockIndex, 0, newBlock)` insertion and the in-place field
updates are written as `take`/`drop` surgery at the found index. -/
def allocate (size : Nat) (s : AllocatorState) :
    Option (Option Nat × AllocatorState) :=
  match searchBlock s size with
  | .crash => none
  | .notFound => some (none, s)
  | .found blockIndex =>
    match s.blocks[blockIndex]? with
    | none => none
    | some block =>
      let allocationId := s.nextId
      let newBlocks :=
        if block.size = size then
          s.blocks.take blockIndex ++
            { block with allocated := true, id := some allocationId } ::
            s.blocks.drop (blockIndex + 1)
        else
          s.blocks.take blockIndex ++
            ⟨block.start, size, true, some allocationId⟩ ::
            { block with start := block.start + size,
                         size := block.size - size } ::
            s.blocks.drop (blockIndex + 1)
      some (some allocationId,
        { s with blocks := newBlocks,
                 allocations := s.allocations ++ [⟨allocationId, size, false⟩],
                 nextId := s.nextId + 1,
                 lastSearchIndex := blockIndex })

/-- The comparator of `defragment`'s `this.blocks.sort(...)`, read as a
`le` relation (comparator result ≤ 0): allocated blocks first, ties
within a class by `start`. -/
def defragLE (a b : Block) : Prop :=
  (a.allocated = true ∧ b.allocated = false) ∨
  (a.allocated = b.allocated ∧ a.start ≤ b.start)

instance : DecidableRel defragLE := fun a b => by
  unfold defragLE; infer_instance

instance : IsTotal Block defragLE := by
  constructor
  intro a b
  unfold defragLE
  rcases ha : a.allocated <;> rcases hb : b.allocated <;>
    rcases Nat.le_total a.start b.start with h | h <;> simp [h]

instance : IsTrans Block defragLE := by
  constructor
  intro a b c hab hbc
  rcases hab with ⟨h1, h2⟩ | ⟨h1, h2⟩ <;> rcases hbc with ⟨h3, h4⟩ | ⟨h3, h4⟩ <;>
    simp_all [defragLE] <;> omega

/-- The `start` recomputation loop of `defragment`: lay the blocks out
contiguously from `currentStart`. -/
def layoutBlocks (currentStart : Nat) : List Block → List Block
  | [] => []
  | b :: rest =>
    { b with start := currentStart } :: layoutBlocks (currentStart + b.size) rest

/-- `defragment()`: stable sort by the comparator, recompute starts
from 0, then merge adjacent free blocks.  JS guarantees a stable sort;
it is modelled by the stable `List.insertionSort`. -/
def defragment (s : AllocatorState) : AllocatorState :=
  { s with blocks := (mergeAdjacentFreeBlocks
      (layoutBlocks 0 (List.insertionSort defragLE s.blocks))) }

/-- Sum of block sizes of a list. -/
def sumSizes (bs : List Block) : Nat := (bs.map Block.size).sum

/-- The result record of `getStats()`. -/
structure Stats where
  totalSize : Nat
  allocated : Nat
  free : Nat
  fragmentation : ℚ
  allocations : Nat
  freeBlocks : Nat
deriving DecidableEq

/-- `Math.max(...freeBlocks.map(b => b.size))` guarded by
`freeBlocks.length > 0 ? ... : 0`. -/
def largestFreeBlock (bs : List Block) : Nat :=
  ((bs.filter fun b => !b.allocated).map Block.size).foldr Nat.max 0

/-- `getStats()`. -/
def getStats (s : AllocatorState) : Stats :=
  let totalAllocated := sumSizes (s.blocks.filter fun b => b.allocated)
  let totalFree := sumSizes (s.blocks.filter fun b => !b.allocated)
  let largest := largestFreeBlock s.blocks
  { totalSize := s.totalSize
    allocated := totalAllocated
    free := totalFree
    fragmentation :=
      if 0 < totalFree then
        ((totalFree : ℚ) - (largest : ℚ)) / (totalFree : ℚ) * 100
      else 0
    allocations := (s.allocations.filter fun a => !a.freed).length
    freeBlocks := (s.blocks.filter fun b => !b.allocated).length }

/-- `reset(newSize)`: `this.totalSize = newSize || this.totalSize`
keeps the old total when the argument is absent or `0` (falsy). -/
def reset (arg : Option Nat) (s : AllocatorState) : AllocatorState :=
  let newTotal :=
    match arg with
    | some n => if n = 0 then s.totalSize else n
    | none => s.totalSize
  { s with totalSize := newTotal
           blocks := [⟨0, newTotal, false, none⟩]
           allocations := []
           nextId := 1
           lastSearchIndex := 0 }

/-- States reachable from a freshly constructed allocator (positive
capacity) by the public operations; `allocate` steps only for positive
request sizes, as the claims require, and only when the call returns
(does not throw). -/
inductive Reachable : AllocatorState → Prop
  | init (T : Nat) (hT : 0 < T) : Reachable (init T)
  | alloc {s : AllocatorState} {r : Option Nat} {s' : AllocatorState}
      (size : Nat) (h : Reachable s) (hsize : 0 < size)
      (heq : allocate size s = some (r, s')) : Reachable s'
  | free {s : AllocatorState} (aid : Option Nat) (h : Reachable s) :
      Reachable (free aid s).2
  | defrag {s : AllocatorState} (h : Reachable s) : Reachable (defragment s)
  | reset {s : AllocatorState} (arg : Option Nat) (h : Reachable s) :
      Reachable (reset arg s)
  | setStrat {s : AllocatorState} (st : Strategy) (h : Reachable s) :
      Reachable (setStrategy st s)

/-- Contiguity: each block ends where the next begins. -/
def Contiguous (bs : List Block) : Prop :=
  List.Chain' (fun a b => b.start = a.start + a.size) bs

/-- No two adjacent blocks are both free. -/
def NoAdjFree (bs : List Block) : Prop :=
  List.Chain' (fun a b => a.allocated = true ∨ b.allocated = true) bs

/-- The first block starts at offset 0. -/
def HeadZero (bs : List Block) : Prop :=
  ∀ b ∈ bs.head?, b.start = 0

/-- Two blocks do not share a (present) id. -/
def IdsOk (a b : Block) : Prop :=
  a.id = none ∨ b.id = none ∨ a.id ≠ b.id

/-- The full well-formedness invariant of reachable allocator states. -/
def WF (s : AllocatorState) : Prop :=
  s.blocks ≠ [] ∧
  HeadZero s.blocks ∧
  Contiguous s.blocks ∧
  sumSizes s.blocks = s.totalSize ∧
  NoAdjFree s.blocks ∧
  (∀ b ∈ s.blocks, 0 < b.size) ∧
  0 < s.totalSize ∧
  (∀ b ∈ s.blocks, b.allocated = true ↔ b.id ≠ none) ∧
  (∀ b ∈ s.blocks, ∀ n, b.id = some n → n < s.nextId) ∧
  List.Pairwise IdsOk s.blocks

end MemoryAllocator

namespace MemoryAllocator

theorem mergeGo_short {l : List Block} (h : l.length ≤ 1) (fuel : Nat) :
    mergeGo fuel l = l := by
  match fuel, l with
  | 0, l => rfl
  | fuel + 1, [] => rfl
  | fuel + 1, [b] => rfl
  | fuel + 1, a :: b :: rest => simp at h

theorem mergeGo_sum (fuel : Nat) (l : List Block) :
    sumSizes (mergeGo fuel l) = sumSizes l := by
  induction fuel generalizing l with
  | zero => rfl
  | succ fuel ih =>
    match l with
    | [] => rfl
    | [b] => rfl
    | a :: b :: rest =>
      rw [mergeGo]
      split
      · rw [ih]; simp [sumSizes]; omega
      · simp only [sumSizes, List.map_cons, List.sum_cons] at *
        rw [ih]; simp

theorem mergeGo_cons_eq (fuel : Nat) (a : Block) (l : List Block) :
    ∃ sz rest', mergeGo fuel (a :: l) = { a with size := sz } :: rest' := by
  induction fuel generalizing a l with
  | zero => exact ⟨a.size, l, rfl⟩
  | succ fuel ih =>
    match l with
    | [] => exact ⟨a.size, [], rfl⟩
    | b :: rest =>
      rw [mergeGo]
      split
      · obtain ⟨sz, rest', h⟩ := ih { a with size := a.size + b.size } rest
        exact ⟨sz, rest', h⟩
      · exact ⟨a.size, mergeGo fuel (b :: rest), rfl⟩

theorem mergeGo_ne_nil (fuel : Nat) {l : List Block} (h : l ≠ []) :
    mergeGo fuel l ≠ [] := by
  match l with
  | [] => exact absurd rfl h
  | a :: l =>
    obtain ⟨sz, rest', heq⟩ := mergeGo_cons_eq fuel a l
    rw [heq]; exact List.cons_ne_nil _ _

theorem mergeGo_headZero {l : List Block} (h : HeadZero l) (fuel : Nat) :
    HeadZero (mergeGo fuel l) := by
  match l with
  | [] => simpa [mergeGo_short] using h
  | a :: l =>
    obtain ⟨sz, rest', heq⟩ := mergeGo_cons_eq fuel a l
    rw [heq]
    intro b hb
    simp only [List.head?_cons, Option.mem_def, Option.some.injEq] at hb
    subst hb
    exact h a (by simp)

theorem mergeGo_contiguous {l : List Block} (h : Contiguous l) (fuel : Nat) :
    Contiguous (mergeGo fuel l) := by
  induction fuel generalizing l with
  | zero => exact h
  | succ fuel ih =>
    match l with
    | [] => exact h
    | [b] => exact h
    | a :: b :: rest =>
      rw [mergeGo]
      unfold Contiguous at h; rw [List.chain'_cons] at h
      obtain ⟨hab, hrest⟩ := h
      split
      · apply ih
        unfold Contiguous
        rw [List.chain'_cons'] at hrest ⊢
        obtain ⟨hb, htail⟩ := hrest
        refine ⟨fun y hy => ?_, htail⟩
        have := hb y hy
        simp only at this ⊢
        omega
      · unfold Contiguous; rw [List.chain'_cons']
        constructor
        · intro y hy
          obtain ⟨sz, rest', heq⟩ := mergeGo_cons_eq fuel b rest
          rw [heq] at hy
          simp only [List.head?_cons, Option.mem_def, Option.some.injEq] at hy
          subst hy
          simpa using hab
        · exact ih hrest

theorem mergeGo_mem (fuel : Nat) {l : List Block} {c : Block}
    (h : c ∈ mergeGo fuel l) :
    ∃ b ∈ l, c.allocated = b.allocated ∧ c.id = b.id ∧ b.size ≤ c.size := by
  induction fuel generalizing l with
  | zero => exact ⟨c, h, rfl, rfl, le_refl _⟩
  | succ fuel ih =>
    match l with
    | [] => exact ⟨c, h, rfl, rfl, le_refl _⟩
    | [b] => exact ⟨c, h, rfl, rfl, le_refl _⟩
    | a :: b :: rest =>
      rw [mergeGo] at h
      split at h
      · obtain ⟨d, hd, h1, h2, h3⟩ := ih h
        rcases List.mem_cons.1 hd with rfl | hd
        · exact ⟨a, by simp, by simpa using h1, by simpa using h2, by simp at h3; omega⟩
        · exact ⟨d, by simp [hd], h1, h2, h3⟩
      · rcases List.mem_cons.1 h with rfl | h
        · exact ⟨c, by simp, rfl, rfl, le_refl _⟩
        · obtain ⟨d, hd, h1, h2, h3⟩ := ih h
          exact ⟨d, by simp [List.mem_cons.1 hd], h1, h2, h3⟩

theorem mergeGo_noAdjFree (fuel : Nat) {l : List Block}
    (hlen : l.length ≤ fuel + 1) : NoAdjFree (mergeGo fuel l) := by
  induction fuel generalizing l with
  | zero =>
    match l with
    | [] => exact List.chain'_nil
    | [b] => exact List.chain'_singleton b
    | a :: b :: rest => simp at hlen
  | succ fuel ih =>
    match l with
    | [] => exact List.chain'_nil
    | [b] => exact List.chain'_singleton b
    | a :: b :: rest =>
      rw [mergeGo]
      split
      · exact ih (by simp at hlen ⊢; omega)
      rename_i hfree
      · unfold NoAdjFree; rw [List.chain'_cons']
        constructor
        · intro y hy
          obtain ⟨sz, rest', heq⟩ := mergeGo_cons_eq fuel b rest
          rw [heq] at hy
          simp only [List.head?_cons, Option.mem_def, Option.some.injEq] at hy
          subst hy
          simp only
          cases haval : a.allocated <;> cases hbval : b.allocated <;> simp_all
        · exact ih (by simp at hlen ⊢; omega)

theorem mergeGo_pairwise_idsOk (fuel : Nat) {l : List Block}
    (h : List.Pairwise IdsOk l) : List.Pairwise IdsOk (mergeGo fuel l) := by
  induction fuel generalizing l with
  | zero => exact h
  | succ fuel ih =>
    match l with
    | [] => exact h
    | [b] => exact h
    | a :: b :: rest =>
      rw [mergeGo]
      rw [List.pairwise_cons] at h
      obtain ⟨ha, hrest⟩ := h
      split
      · apply ih
        rw [List.pairwise_cons]
        rw [List.pairwise_cons] at hrest
        refine ⟨fun c hc => ?_, hrest.2⟩
        have := ha c (List.mem_cons_of_mem _ hc)
        rcases this with h1 | h2 | h3
        · left; exact h1
        · right; left; exact h2
        · right; right; exact h3
      · rw [List.pairwise_cons]
        refine ⟨fun c hc => ?_, ih hrest⟩
        obtain ⟨d, hd, _, hid, _⟩ := mergeGo_mem fuel hc
        have := ha d hd
        rw [IdsOk] at this ⊢
        rw [hid]
        exact this

theorem mergeGo_sizes_pos (fuel : Nat) {l : List Block}
    (h : ∀ b ∈ l, 0 < b.size) : ∀ c ∈ mergeGo fuel l, 0 < c.size := by
  intro c hc
  obtain ⟨b, hb, _, _, hle⟩ := mergeGo_mem fuel hc
  exact lt_of_lt_of_le (h b hb) hle

end MemoryAllocator

namespace MemoryAllocator

theorem firstFit_some {size : Nat} {l : List Block} {i : Nat}
    (h : firstFit size l = some i) :
    ∃ b, l[i]? = some b ∧ b.allocated = false ∧ size ≤ b.size := by
  induction l generalizing i with
  | nil => rw [firstFit] at h; exact Option.noConfusion h
  | cons b rest ih =>
    rw [firstFit] at h
    split at h
    · rename_i hb
      cases h
      exact ⟨b, by simp, hb⟩
    · match hrec : firstFit size rest with
      | none => rw [hrec] at h; simp at h
      | some j =>
        rw [hrec] at h
        simp at h
        subst h
        obtain ⟨c, hc1, hc2⟩ := ih hrec
        exact ⟨c, by simpa using hc1, hc2⟩

theorem bestFitGo_some {size : Nat} {l : List Block} {i0 : Nat}
    {acc : Option (Nat × Nat)} {j : Nat}
    (h : bestFitGo size l i0 acc = some j) :
    (∃ sz, acc = some (j, sz)) ∨
    ∃ k b, l[k]? = some b ∧ b.allocated = false ∧ size ≤ b.size ∧
      j = i0 + k := by
  induction l generalizing i0 acc with
  | nil =>
    rw [bestFitGo] at h
    rcases acc with _ | ⟨a, sz⟩
    · simp at h
    · simp at h
      exact .inl ⟨sz, by rw [h]⟩
  | cons b rest ih =>
    rw [bestFitGo] at h
    split at h
    · rename_i hb
      rcases ih h with ⟨sz, hacc⟩ | ⟨k, c, hc1, hc2, hc3, hc4⟩
      · cases hacc
        exact .inr ⟨0, b, by simp, hb.1, hb.2.1, by omega⟩
      · exact .inr ⟨k + 1, c, by simpa using hc1, hc2, hc3, by omega⟩
    · rcases ih h with ⟨sz, hacc⟩ | ⟨k, c, hc1, hc2, hc3, hc4⟩
      · exact .inl ⟨sz, hacc⟩
      · exact .inr ⟨k + 1, c, by simpa using hc1, hc2, hc3, by omega⟩

theorem worstFitGo_some {size : Nat} {l : List Block} {i0 : Nat}
    {acc : Option (Nat × Nat)} {j : Nat}
    (h : worstFitGo size l i0 acc = some j) :
    (∃ sz, acc = some (j, sz)) ∨
    ∃ k b, l[k]? = some b ∧ b.allocated = false ∧ size ≤ b.size ∧
      j = i0 + k := by
  induction l generalizing i0 acc with
  | nil =>
    rw [worstFitGo] at h
    rcases acc with _ | ⟨a, sz⟩
    · simp at h
    · simp at h
      exact .inl ⟨sz, by rw [h]⟩
  | cons b rest ih =>
    rw [worstFitGo] at h
    split at h
    · rename_i hb
      rcases ih h with ⟨sz, hacc⟩ | ⟨k, c, hc1, hc2, hc3, hc4⟩
      · cases hacc
        exact .inr ⟨0, b, by simp, hb.1, hb.2.1, by omega⟩
      · exact .inr ⟨k + 1, c, by simpa using hc1, hc2, hc3, by omega⟩
    · rcases ih h with ⟨sz, hacc⟩ | ⟨k, c, hc1, hc2, hc3, hc4⟩
      · exact .inl ⟨sz, hacc⟩
      · exact .inr ⟨k + 1, c, by simpa using hc1, hc2, hc3, by omega⟩

theorem nextFitLoop_found {bs : List Block} {size startIndex : Nat}
    {fuel cur j : Nat}
    (h : nextFitLoop bs size startIndex fuel cur = some (.found j)) :
    ∃ b, bs[j]? = some b ∧ b.allocated = false ∧ size ≤ b.size := by
  induction fuel generalizing cur with
  | zero => rw [nextFitLoop] at h; exact Option.noConfusion h
  | succ fuel ih =>
    rw [nextFitLoop] at h
    split at h
    · simp at h
    · rename_i b hcur
      split at h
      · rename_i hb
        simp only [Option.some.injEq, SearchOutcome.found.injEq] at h
        subst h
        exact ⟨b, hcur, hb⟩
      · split at h
        · simp at h
        · exact ih h

theorem searchBlock_found {s : AllocatorState} {size i : Nat}
    (h : searchBlock s size = .found i) :
    ∃ b, s.blocks[i]? = some b ∧ b.allocated = false ∧ size ≤ b.size := by
  unfold searchBlock at h
  match hst : s.strategy with
  | .firstFit =>
    rw [hst] at h
    match hf : firstFit size s.blocks with
    | some j => rw [hf] at h; cases h; exact firstFit_some hf
    | none => rw [hf] at h; cases h
  | .bestFit =>
    rw [hst] at h
    match hf : bestFit size s.blocks with
    | some j =>
      rw [hf] at h; cases h
      rcases bestFitGo_some hf with ⟨sz, hacc⟩ | ⟨k, b, h1, h2, h3, h4⟩
      · cases hacc
      · exact ⟨b, by simpa [h4] using h1, h2, h3⟩
    | none => rw [hf] at h; cases h
  | .worstFit =>
    rw [hst] at h
    match hf : worstFit size s.blocks with
    | some j =>
      rw [hf] at h; cases h
      rcases worstFitGo_some hf with ⟨sz, hacc⟩ | ⟨k, b, h1, h2, h3, h4⟩
      · cases hacc
      · exact ⟨b, by simpa [h4] using h1, h2, h3⟩
    | none => rw [hf] at h; cases h
  | .nextFit =>
    rw [hst] at h
    unfold nextFit at h
    match hf : nextFitLoop s.blocks size s.lastSearchIndex
        (s.blocks.length + 1) s.lastSearchIndex with
    | some r => rw [hf] at h; subst h; exact nextFitLoop_found hf
    | none => rw [hf] at h; cases h

end MemoryAllocator

namespace MemoryAllocator

/-- A block index is eligible for a request when it is in bounds and
its block is free and large enough. -/
def eligible (bs : List Block) (size : Nat) (j : Nat) : Bool :=
  match bs[j]? with
  | some b => !b.allocated && decide (size ≤ b.size)
  | none => false

/-- The indices `startIndex, startIndex+1, ..., len-1, 0, ..., startIndex-1`
visited by one full circular pass of the next-fit scan. -/
def circularIndices (startIndex len : Nat) : List Nat :=
  List.range' startIndex (len - startIndex) ++ List.range startIndex

theorem nextFitLoop_cons {bs : List Block} {size startIndex cur : Nat}
    {b : Block} (fuel : Nat) (hget : bs[cur]? = some b) :
    nextFitLoop bs size startIndex (fuel + 1) cur =
      if b.allocated = false ∧ size ≤ b.size then some (.found cur)
      else if (cur + 1) % bs.length = startIndex then some .notFound
      else nextFitLoop bs size startIndex fuel ((cur + 1) % bs.length) := by
  rw [nextFitLoop, hget]

theorem nextFitLoop_phase2 {bs : List Block} {size startIndex : Nat}
    (hs : startIndex < bs.length) :
    ∀ fuel cur, cur < startIndex → startIndex - cur ≤ fuel →
    nextFitLoop bs size startIndex fuel cur =
      some (match (List.range' cur (startIndex - cur)).find? (eligible bs size) with
            | some j => .found j
            | none => .notFound) := by
  intro fuel
  induction fuel with
  | zero => intro cur h1 h2; omega
  | succ fuel ih =>
    intro cur h1 h2
    have hcur : cur < bs.length := by omega
    obtain ⟨b, hget⟩ : ∃ b, bs[cur]? = some b :=
      ⟨_, List.getElem?_eq_getElem hcur⟩
    rw [nextFitLoop_cons fuel hget]
    have hrange : startIndex - cur = (startIndex - (cur + 1)) + 1 := by omega
    rw [hrange, List.range'_succ]
    by_cases helig : b.allocated = false ∧ size ≤ b.size
    · rw [if_pos helig]
      have hp : eligible bs size cur = true := by
        rw [eligible, hget]; simp [helig.1, helig.2]
      rw [List.find?_cons_of_pos _ hp]
    · rw [if_neg helig]
      have hp : eligible bs size cur = false := by
        rw [eligible, hget]
        cases hb : b.allocated
        · simp only [hb, Bool.not_false, Bool.true_and, decide_eq_false_iff_not]
          intro hle; exact helig ⟨hb, hle⟩
        · simp [hb]
      rw [List.find?_cons_of_neg _ (by simp [hp])]
      have hmod : (cur + 1) % bs.length = cur + 1 := Nat.mod_eq_of_lt (by omega)
      rw [hmod]
      by_cases hend : cur + 1 = startIndex
      · rw [if_pos hend]
        have hz : startIndex - (cur + 1) = 0 := by omega
        rw [hz]
        simp [List.range']
      · rw [if_neg hend]
        have hrec := ih (cur + 1) (by omega) (by omega)
        simp only [Nat.add_sub_cancel] at hrec ⊢
        exact hrec

theorem nextFitLoop_phase1 {bs : List Block} {size startIndex : Nat}
    (hs : startIndex < bs.length) :
    ∀ fuel cur, startIndex ≤ cur → cur < bs.length →
    (bs.length - cur) + startIndex ≤ fuel →
    nextFitLoop bs size startIndex fuel cur =
      some (match (List.range' cur (bs.length - cur) ++
              List.range startIndex).find? (eligible bs size) with
            | some j => .found j
            | none => .notFound) := by
  intro fuel
  induction fuel with
  | zero => intro cur h1 h2 h3; omega
  | succ fuel ih =>
    intro cur h1 hcur h3
    obtain ⟨b, hget⟩ : ∃ b, bs[cur]? = some b :=
      ⟨_, List.getElem?_eq_getElem hcur⟩
    rw [nextFitLoop_cons fuel hget]
    have hrange : bs.length - cur = (bs.length - (cur + 1)) + 1 := by omega
    rw [hrange, List.range'_succ]
    by_cases helig : b.allocated = false ∧ size ≤ b.size
    · rw [if_pos helig]
      have hp : eligible bs size cur = true := by
        rw [eligible, hget]; simp [helig.1, helig.2]
      rw [List.cons_append, List.find?_cons_of_pos _ hp]
    · rw [if_neg helig]
      have hp : eligible bs size cur = false := by
        rw [eligible, hget]
        cases hb : b.allocated
        · simp only [hb, Bool.not_false, Bool.true_and, decide_eq_false_iff_not]
          intro hle; exact helig ⟨hb, hle⟩
        · simp [hb]
      rw [List.cons_append, List.find?_cons_of_neg _ (by simp [hp])]
      by_cases hwrap : cur + 1 = bs.length
      · have hmod : (cur + 1) % bs.length = 0 := by rw [hwrap, Nat.mod_self]
        rw [hmod]
        have hlen1 : bs.length - (cur + 1) = 0 := by omega
        rw [hlen1]
        by_cases hzero : (0 : Nat) = startIndex
        · rw [if_pos hzero]
          rw [← hzero]
          simp [List.range']
        · rw [if_neg hzero]
          have h2 := @nextFitLoop_phase2 bs size startIndex hs fuel 0
            (by omega) (by omega)
          rw [h2]
          simp [List.range', List.range_eq_range']
      · have hmod : (cur + 1) % bs.length = cur + 1 := Nat.mod_eq_of_lt (by omega)
        rw [hmod]
        have hend : ¬(cur + 1 = startIndex) := by omega
        rw [if_neg hend]
        have hrec := ih (cur + 1) (by omega) (by omega) (by omega)
        simp only [Nat.add_sub_cancel] at hrec ⊢
        rw [hrec]

theorem nextFit_eq_circularScan (s : AllocatorState) (size : Nat)
    (h : s.lastSearchIndex < s.blocks.length) :
    nextFit s size =
      match (circularIndices s.lastSearchIndex s.blocks.length).find?
          (eligible s.blocks size) with
      | some j => .found j
      | none => .notFound := by
  have h1 := @nextFitLoop_phase1 s.blocks size s.lastSearchIndex h
    (s.blocks.length + 1) s.lastSearchIndex (le_refl _) h (by omega)
  rw [nextFit, h1, circularIndices]

theorem nextFitLoop_terminates (bs : List Block) (size startIndex : Nat)
    (hne : bs ≠ []) :
    nextFitLoop bs size startIndex (bs.length + 1) startIndex ≠ none := by
  by_cases hs : startIndex < bs.length
  · rw [nextFitLoop_phase1 hs (bs.length + 1) startIndex (le_refl _) hs (by omega)]
    split <;> simp
  · have hlen : 0 < bs.length := List.length_pos.2 hne
    have : bs.length + 1 = (bs.length) + 1 := rfl
    rw [nextFitLoop]
    have hnone : bs[startIndex]? = none := by
      rw [List.getElem?_eq_none]; omega
    rw [hnone]
    simp

theorem mergeAdjacentFreeBlocks_cons_cons (c n : Block) (d : List Block) :
    mergeAdjacentFreeBlocks (c :: n :: d) =
      if c.allocated = false ∧ n.allocated = false then
        mergeAdjacentFreeBlocks ({ c with size := c.size + n.size } :: d)
      else c :: mergeAdjacentFreeBlocks (n :: d) := by
  unfold mergeAdjacentFreeBlocks
  simp only [List.length_cons]
  rw [mergeGo]

theorem mergeLoop_step {i : Nat} {bs : List Block} {c n : Block} (fuel : Nat)
    (h : i + 1 < bs.length) (hc : bs[i]? = some c) (hn : bs[i + 1]? = some n) :
    mergeLoop (fuel + 1) i bs =
      if c.allocated = false ∧ n.allocated = false then
        mergeLoop fuel i
          (bs.take i ++ { c with size := c.size + n.size } :: bs.drop (i + 2))
      else
        mergeLoop fuel (i + 1) bs := by
  rw [mergeLoop, if_pos h, hc, hn]

theorem mergeLoop_eq_mergeGo_aux :
    ∀ fuel i (bs : List Block), i ≤ bs.length →
    2 * bs.length + 1 ≤ fuel + 2 * i →
    mergeLoop fuel i bs =
      some (bs.take i ++ mergeAdjacentFreeBlocks (bs.drop i)) := by
  intro fuel
  induction fuel with
  | zero => intro i bs h1 h2; omega
  | succ fuel ih =>
    intro i bs h1 h2
    by_cases hlt : i + 1 < bs.length
    · have hi : i < bs.length := by omega
      obtain ⟨c, hc⟩ : ∃ c, bs[i]? = some c :=
        ⟨_, List.getElem?_eq_getElem hi⟩
      obtain ⟨n, hn⟩ : ∃ n, bs[i + 1]? = some n :=
        ⟨_, List.getElem?_eq_getElem hlt⟩
      have hgc : bs[i] = c := by
        rw [List.getElem?_eq_getElem hi] at hc; exact Option.some.inj hc
      have hgn : bs[i + 1] = n := by
        rw [List.getElem?_eq_getElem hlt] at hn; exact Option.some.inj hn
      have hdrop1 : bs.drop i = c :: bs.drop (i + 1) := by
        rw [List.drop_eq_getElem_cons hi, hgc]
      have hdrop2 : bs.drop (i + 1) = n :: bs.drop (i + 2) := by
        rw [List.drop_eq_getElem_cons hlt, hgn]
      rw [mergeLoop_step fuel hlt hc hn]
      by_cases hfree : c.allocated = false ∧ n.allocated = false
      · rw [if_pos hfree]
        have hlen' : (bs.take i ++
            { c with size := c.size + n.size } :: bs.drop (i + 2)).length =
            bs.length - 1 := by
          simp
          omega
        rw [ih i _ (by rw [hlen']; omega) (by rw [hlen']; omega)]
        have htl : (bs.take i).length = i := by
          simp
          omega
        have htake : (bs.take i ++
            { c with size := c.size + n.size } :: bs.drop (i + 2)).take i =
            bs.take i := by
          rw [List.take_append_of_le_length (by omega), List.take_take]
          simp
        have hdrop : (bs.take i ++
            { c with size := c.size + n.size } :: bs.drop (i + 2)).drop i =
            { c with size := c.size + n.size } :: bs.drop (i + 2) := by
          rw [List.drop_append_of_le_length (by omega)]
          rw [List.drop_eq_nil_of_le (by omega), List.nil_append]
        rw [htake, hdrop, hdrop1, hdrop2, mergeAdjacentFreeBlocks_cons_cons,
          if_pos hfree]
      · rw [if_neg hfree]
        rw [ih (i + 1) bs (by omega) (by omega)]
        have htake : bs.take (i + 1) = bs.take i ++ [c] := by
          rw [List.take_succ, hc]
          rfl
        rw [htake, hdrop1, hdrop2, mergeAdjacentFreeBlocks_cons_cons,
          if_neg hfree, ← hdrop2, List.append_assoc]
        rfl
    · rw [mergeLoop, if_neg hlt]
      have hshort : (bs.drop i).length ≤ 1 := by simp; omega
      rw [mergeAdjacentFreeBlocks, mergeGo_short hshort]
      rw [List.take_append_drop]

theorem mergeLoop_eq_mergeGo (bs : List Block) :
    mergeLoop (2 * bs.length + 1) 0 bs = some (mergeAdjacentFreeBlocks bs) := by
  have := mergeLoop_eq_mergeGo_aux (2 * bs.length + 1) 0 bs (by omega) (by omega)
  simpa using this

end MemoryAllocator

namespace MemoryAllocator

theorem sumSizes_append (l₁ l₂ : List Block) :
    sumSizes (l₁ ++ l₂) = sumSizes l₁ + sumSizes l₂ := by
  simp [sumSizes]

theorem sumSizes_cons (b : Block) (l : List Block) :
    sumSizes (b :: l) = b.size + sumSizes l := by
  simp [sumSizes]

theorem headZero_append_cons {l₁ : List Block} {b b' : Block}
    {l₂ l₂' : List Block} (hst : b'.start = b.start)
    (h : HeadZero (l₁ ++ b :: l₂)) : HeadZero (l₁ ++ b' :: l₂') := by
  unfold HeadZero at *
  cases l₁ with
  | nil =>
    intro y hy
    simp only [List.nil_append, List.head?_cons, Option.mem_def,
      Option.some.injEq] at hy
    subst hy
    rw [hst]
    exact h b (by simp)
  | cons a l₁ =>
    intro y hy
    simp only [List.cons_append, List.head?_cons, Option.mem_def,
      Option.some.injEq] at hy
    subst hy
    exact h a (by simp)

theorem contiguous_replace {l₁ l₂ : List Block} {b b' : Block}
    (hst : b'.start = b.start) (hsz : b'.size = b.size)
    (h : Contiguous (l₁ ++ b :: l₂)) : Contiguous (l₁ ++ b' :: l₂) := by
  unfold Contiguous at *
  rw [List.chain'_append] at h ⊢
  obtain ⟨h1, h2, h3⟩ := h
  rw [List.chain'_cons'] at h2 ⊢
  refine ⟨h1, ⟨fun y hy => ?_, h2.2⟩, fun x hx y hy => ?_⟩
  · rw [hst, hsz]
    exact h2.1 y hy
  · simp only [List.head?_cons, Option.mem_def, Option.some.injEq] at hy
    subst hy
    rw [hst]
    exact h3 x hx b (by simp)

theorem noAdjFree_replace_alloc {l₁ l₂ : List Block} {b b' : Block}
    (halloc : b'.allocated = true)
    (h : NoAdjFree (l₁ ++ b :: l₂)) : NoAdjFree (l₁ ++ b' :: l₂) := by
  unfold NoAdjFree at *
  rw [List.chain'_append] at h ⊢
  obtain ⟨h1, h2, h3⟩ := h
  rw [List.chain'_cons'] at h2 ⊢
  refine ⟨h1, ⟨fun y hy => ?_, h2.2⟩, fun x hx y hy => ?_⟩
  · left; exact halloc
  · simp only [List.head?_cons, Option.mem_def, Option.some.injEq] at hy
    subst hy
    right; exact halloc

theorem freeBlocks_eq {aid : Option Nat} :
    ∀ {l bs1 : List Block}, freeBlocks aid l = some bs1 →
    ∃ l₁ b l₂, l = l₁ ++ b :: l₂ ∧ b.id = aid ∧
      bs1 = l₁ ++ { b with allocated := false, id := none } :: l₂ ∧
      (∀ x ∈ l₁, x.id ≠ aid) := by
  intro l
  induction l with
  | nil => intro bs1 h; rw [freeBlocks] at h; exact Option.noConfusion h
  | cons b rest ih =>
    intro bs1 h
    rw [freeBlocks] at h
    split at h
    · rename_i hb
      cases h
      exact ⟨[], b, rest, by simp, hb, by simp, by simp⟩
    · rename_i hb
      match hrec : freeBlocks aid rest with
      | none => rw [hrec] at h; exact Option.noConfusion h
      | some bs2 =>
        rw [hrec] at h
        simp at h
        obtain ⟨l₁, c, l₂, he1, he2, he3, he4⟩ := ih hrec
        subst h
        refine ⟨b :: l₁, c, l₂, by rw [he1]; rfl, he2, by rw [he3]; rfl, ?_⟩
        intro x hx
        rcases List.mem_cons.1 hx with rfl | hx
        · exact hb
        · exact he4 x hx

theorem mergeGo_alloc_id_pred {P : Bool → Option Nat → Prop} (fuel : Nat)
    {l : List Block} (h : ∀ b ∈ l, P b.allocated b.id) :
    ∀ c ∈ mergeGo fuel l, P c.allocated c.id := by
  intro c hc
  obtain ⟨b, hb, h1, h2, _⟩ := mergeGo_mem fuel hc
  rw [h1, h2]
  exact h b hb

theorem wf_init {T : Nat} (hT : 0 < T) : WF (init T) := by
  unfold WF init HeadZero Contiguous NoAdjFree sumSizes IdsOk
  refine ⟨by simp, ?_, ?_, by simp, ?_, ?_, hT, ?_, ?_, ?_⟩
  · intro b hb
    simp only [List.head?_cons, Option.mem_def, Option.some.injEq] at hb
    subst hb; rfl
  · exact List.chain'_singleton _
  · exact List.chain'_singleton _
  · intro b hb
    simp only [List.mem_singleton] at hb
    subst hb; exact hT
  · intro b hb
    simp only [List.mem_singleton] at hb
    subst hb; simp
  · intro b hb
    simp only [List.mem_singleton] at hb
    subst hb; simp
  · simp

theorem wf_setStrategy {s : AllocatorState} (st : Strategy) (h : WF s) :
    WF (setStrategy st s) := by
  unfold WF setStrategy at *
  exact h

theorem wf_reset {s : AllocatorState} (arg : Option Nat) (h : WF s) :
    WF (reset arg s) := by
  have hpos : 0 < s.totalSize := h.2.2.2.2.2.2.1
  have hT : 0 < (reset arg s).totalSize := by
    unfold reset
    match arg with
    | none => exact hpos
    | some 0 => simpa using hpos
    | some (n + 1) => simp
  rcases harg : (reset arg s).totalSize with _ | T
  · omega
  · unfold WF
    have hblocks : (reset arg s).blocks =
        [⟨0, (reset arg s).totalSize, false, none⟩] := by
      unfold reset at harg ⊢
      simp at harg ⊢
    rw [hblocks]
    unfold HeadZero Contiguous NoAdjFree sumSizes IdsOk
    refine ⟨by simp, ?_, ?_, by simp, ?_, ?_, hT, ?_, ?_, ?_⟩
    · intro b hb
      simp only [List.head?_cons, Option.mem_def, Option.some.injEq] at hb
      subst hb; rfl
    · exact List.chain'_singleton _
    · exact List.chain'_singleton _
    · intro b hb
      simp only [List.mem_singleton] at hb
      subst hb; exact hT
    · intro b hb
      simp only [List.mem_singleton] at hb
      subst hb; simp
    · intro b hb
      simp only [List.mem_singleton] at hb
      subst hb; simp
    · simp

end MemoryAllocator

namespace MemoryAllocator

theorem pairwise_idsOk_replace {l₁ l₂ : List Block} {b b' : Block}
    (hid : b'.id = none) (h : List.Pairwise IdsOk (l₁ ++ b :: l₂)) :
    List.Pairwise IdsOk (l₁ ++ b' :: l₂) := by
  rw [List.pairwise_append] at h ⊢
  obtain ⟨h1, h2, h3⟩ := h
  rw [List.pairwise_cons] at h2 ⊢
  refine ⟨h1, ⟨fun y hy => .inl hid, h2.2⟩, fun x hx y hy => ?_⟩
  rcases List.mem_cons.1 hy with rfl | hy
  · exact .inr (.inl hid)
  · exact h3 x hx y (List.mem_cons_of_mem _ hy)

theorem wf_free {s : AllocatorState} (aid : Option Nat) (h : WF s) :
    WF (free aid s).2 := by
  match hfb : freeBlocks aid s.blocks with
  | none =>
    have hstep : (free aid s).2 = s := by rw [free, hfb]
    rw [hstep]; exact h
  | some bs1 =>
    have hstep : (free aid s).2 =
        { s with blocks := mergeAdjacentFreeBlocks bs1,
                 allocations := markFreed aid s.allocations } := by
      rw [free, hfb]
    rw [hstep]
    obtain ⟨l₁, b, l₂, he1, he2, he3, he4⟩ := freeBlocks_eq hfb
    obtain ⟨hne, hhz, hcont, hsum, hnaf, hpos, htot, hsync, hbound, hpair⟩ := h
    rw [he1] at hhz hcont hsum hpos hsync hbound hpair
    subst he3
    refine ⟨?_, ?_, ?_, ?_, ?_, ?_, htot, ?_, ?_, ?_⟩
    · exact mergeGo_ne_nil _ (by simp)
    · exact mergeGo_headZero
        (@headZero_append_cons l₁ b { b with allocated := false, id := none }
          l₂ l₂ rfl hhz) _
    · exact mergeGo_contiguous
        (@contiguous_replace l₁ l₂ b { b with allocated := false, id := none }
          rfl rfl hcont) _
    · show sumSizes (mergeAdjacentFreeBlocks _) = s.totalSize
      rw [mergeAdjacentFreeBlocks, mergeGo_sum]
      rw [sumSizes_append, sumSizes_cons] at hsum ⊢
      exact hsum
    · exact mergeGo_noAdjFree _ (Nat.le_succ _)
    · refine mergeGo_sizes_pos _ ?_
      intro x hx
      rcases List.mem_append.1 hx with hx | hx
      · exact hpos x (List.mem_append.2 (.inl hx))
      · rcases List.mem_cons.1 hx with rfl | hx
        · exact hpos b (List.mem_append.2 (.inr (by simp)))
        · exact hpos x (List.mem_append.2 (.inr (List.mem_cons_of_mem _ hx)))
    · refine @mergeGo_alloc_id_pred
        (fun al oid => al = true ↔ oid ≠ none) _ _ ?_
      intro x hx
      rcases List.mem_append.1 hx with hx | hx
      · exact hsync x (List.mem_append.2 (.inl hx))
      · rcases List.mem_cons.1 hx with rfl | hx
        · simp
        · exact hsync x (List.mem_append.2 (.inr (List.mem_cons_of_mem _ hx)))
    · refine @mergeGo_alloc_id_pred
        (fun al oid => ∀ n, oid = some n → n < s.nextId) _ _ ?_
      intro x hx
      rcases List.mem_append.1 hx with hx | hx
      · exact hbound x (List.mem_append.2 (.inl hx))
      · rcases List.mem_cons.1 hx with rfl | hx
        · simp
        · exact hbound x (List.mem_append.2 (.inr (List.mem_cons_of_mem _ hx)))
    · exact mergeGo_pairwise_idsOk _
        (@pairwise_idsOk_replace l₁ l₂ b
          { b with allocated := false, id := none } rfl hpair)

end MemoryAllocator

namespace MemoryAllocator

theorem contiguous_split {l₁ l₂ : List Block} {b : Block} {size : Nat}
    (hle : size ≤ b.size) (al : Bool) (oid : Option Nat)
    (h : Contiguous (l₁ ++ b :: l₂)) :
    Contiguous (l₁ ++ (⟨b.start, size, al, oid⟩ : Block) ::
      { b with start := b.start + size, size := b.size - size } :: l₂) := by
  unfold Contiguous at *
  rw [List.chain'_append] at h ⊢
  obtain ⟨h1, h2, h3⟩ := h
  rw [List.chain'_cons'] at h2
  refine ⟨h1, ?_, fun x hx y hy => ?_⟩
  · rw [List.chain'_cons]
    refine ⟨by simp, ?_⟩
    rw [List.chain'_cons']
    refine ⟨fun y hy => ?_, h2.2⟩
    have := h2.1 y hy
    simp only at this ⊢
    omega
  · simp only [List.head?_cons, Option.mem_def, Option.some.injEq] at hy
    subst hy
    exact h3 x hx b (by simp)

theorem noAdjFree_split {l₁ l₂ : List Block} {b newB rem : Block}
    (hbfree : b.allocated = false) (hnew : newB.allocated = true)
    (hrem : rem.allocated = b.allocated)
    (h : NoAdjFree (l₁ ++ b :: l₂)) :
    NoAdjFree (l₁ ++ newB :: rem :: l₂) := by
  unfold NoAdjFree at *
  rw [List.chain'_append] at h ⊢
  obtain ⟨h1, h2, h3⟩ := h
  rw [List.chain'_cons'] at h2
  refine ⟨h1, ?_, fun x hx y hy => ?_⟩
  · rw [List.chain'_cons]
    refine ⟨.inl hnew, ?_⟩
    rw [List.chain'_cons']
    refine ⟨fun y hy => ?_, h2.2⟩
    have hby := h2.1 y hy
    rcases hby with hb | hy'
    · rw [hbfree] at hb; exact absurd hb (by simp)
    · right; exact hy'
  · simp only [List.head?_cons, Option.mem_def, Option.some.injEq] at hy
    subst hy
    right; exact hnew

theorem pairwise_idsOk_fresh {l₁ l₂ : List Block} {b newB : Block} {N : Nat}
    (hpair : List.Pairwise IdsOk (l₁ ++ b :: l₂))
    (hbound : ∀ x ∈ l₁ ++ b :: l₂, ∀ n, x.id = some n → n < N)
    (hnew : newB.id = some N) :
    List.Pairwise IdsOk (l₁ ++ newB :: l₂) := by
  rw [List.pairwise_append] at hpair ⊢
  obtain ⟨h1, h2, h3⟩ := hpair
  rw [List.pairwise_cons] at h2 ⊢
  refine ⟨h1, ⟨fun y hy => ?_, h2.2⟩, fun x hx y hy => ?_⟩
  · match hyid : y.id with
    | none => exact .inr (.inl hyid)
    | some m =>
      have := hbound y (List.mem_append.2 (.inr (List.mem_cons_of_mem _ hy)))
        m hyid
      refine .inr (.inr ?_)
      rw [hnew, hyid]
      intro hc
      cases hc
      omega
  · rcases List.mem_cons.1 hy with rfl | hy
    · match hxid : x.id with
      | none => exact .inl hxid
      | some m =>
        have := hbound x (List.mem_append.2 (.inl hx)) m hxid
        refine .inr (.inr ?_)
        rw [hnew, hxid]
        intro hc
        cases hc
        omega
    · exact h3 x hx y (List.mem_cons_of_mem _ hy)

theorem pairwise_idsOk_split {l₁ l₂ : List Block} {b newB rem : Block}
    {N : Nat}
    (hpair : List.Pairwise IdsOk (l₁ ++ b :: l₂))
    (hbound : ∀ x ∈ l₁ ++ b :: l₂, ∀ n, x.id = some n → n < N)
    (hnew : newB.id = some N) (hrem : rem.id = none) :
    List.Pairwise IdsOk (l₁ ++ newB :: rem :: l₂) := by
  have step1 : List.Pairwise IdsOk (l₁ ++ newB :: l₂) :=
    pairwise_idsOk_fresh hpair hbound hnew
  rw [List.pairwise_append] at step1 ⊢
  obtain ⟨h1, h2, h3⟩ := step1
  rw [List.pairwise_cons] at h2 ⊢
  refine ⟨h1, ⟨fun y hy => ?_, ?_⟩, fun x hx y hy => ?_⟩
  · rcases List.mem_cons.1 hy with rfl | hy
    · exact .inr (.inl hrem)
    · exact h2.1 y hy
  · rw [List.pairwise_cons]
    exact ⟨fun y hy => .inl hrem, h2.2⟩
  · rcases List.mem_cons.1 hy with rfl | hy
    · exact h3 x hx _ (List.mem_cons_self _ _)
    · rcases List.mem_cons.1 hy with rfl | hy
      · exact .inr (.inl hrem)
      · exact h3 x hx y (List.mem_cons_of_mem _ hy)

end MemoryAllocator

namespace MemoryAllocator

theorem allocate_found {s : AllocatorState} {size i : Nat} {b : Block}
    (hsb : searchBlock s size = .found i) (hbi : s.blocks[i]? = some b) :
    allocate size s = some (some s.nextId,
      { s with
          blocks :=
            if b.size = size then
              s.blocks.take i ++
                { b with allocated := true, id := some s.nextId } ::
                s.blocks.drop (i + 1)
            else
              s.blocks.take i ++
                (⟨b.start, size, true, some s.nextId⟩ : Block) ::
                { b with start := b.start + size, size := b.size - size } ::
                s.blocks.drop (i + 1),
          allocations := s.allocations ++ [⟨s.nextId, size, false⟩],
          nextId := s.nextId + 1,
          lastSearchIndex := i }) := by
  simp only [allocate, hsb, hbi]

theorem wf_alloc {s : AllocatorState} {size : Nat} {r : Option Nat}
    {s' : AllocatorState} (h : WF s) (hsize : 0 < size)
    (heq : allocate size s = some (r, s')) : WF s' := by
  match hsb : searchBlock s size with
  | .crash => rw [allocate, hsb] at heq; exact Option.noConfusion heq
  | .notFound =>
    rw [allocate, hsb] at heq
    simp only [Option.some.injEq, Prod.mk.injEq] at heq
    rw [← heq.2]
    exact h
  | .found i =>
    obtain ⟨b, hbi, hbfree, hble⟩ := searchBlock_found hsb
    have hstep := allocate_found hsb hbi
    rw [hstep] at heq
    simp only [Option.some.injEq, Prod.mk.injEq] at heq
    obtain ⟨hr, hs'⟩ := heq
    subst hs'
    have hi : i < s.blocks.length := by
      by_contra hno
      rw [List.getElem?_eq_none (by omega)] at hbi
      exact Option.noConfusion hbi
    have hgb : s.blocks[i] = b := by
      rw [List.getElem?_eq_getElem hi] at hbi
      exact Option.some.inj hbi
    have hdecomp : s.blocks = s.blocks.take i ++ b :: s.blocks.drop (i + 1) := by
      conv_lhs => rw [← List.take_append_drop i s.blocks]
      rw [List.drop_eq_getElem_cons hi, hgb]
    obtain ⟨hne, hhz, hcont, hsum, hnaf, hpos, htot, hsync, hbound, hpair⟩ := h
    rw [hdecomp] at hhz hcont hsum hnaf hpos hsync hbound hpair
    have hbid : b.id = none := by
      have hs := hsync b (List.mem_append.2 (.inr (List.mem_cons_self _ _)))
      rw [hbfree] at hs
      by_contra hc
      exact absurd (hs.2 hc) (by simp)
    by_cases hsz : b.size = size
    · rw [if_pos hsz]
      refine ⟨?_, ?_, ?_, ?_, ?_, ?_, htot, ?_, ?_, ?_⟩
      · simp
      · exact @headZero_append_cons (s.blocks.take i) b
          { b with allocated := true, id := some s.nextId }
          (s.blocks.drop (i + 1)) (s.blocks.drop (i + 1)) rfl hhz
      · exact @contiguous_replace (s.blocks.take i) (s.blocks.drop (i + 1)) b
          { b with allocated := true, id := some s.nextId } rfl rfl hcont
      · show sumSizes _ = s.totalSize
        rw [sumSizes_append, sumSizes_cons] at hsum ⊢
        exact hsum
      · exact @noAdjFree_replace_alloc (s.blocks.take i) (s.blocks.drop (i + 1))
          b { b with allocated := true, id := some s.nextId } rfl hnaf
      · intro x hx
        rcases List.mem_append.1 hx with hx | hx
        · exact hpos x (List.mem_append.2 (.inl hx))
        · rcases List.mem_cons.1 hx with rfl | hx
          · exact hpos b (List.mem_append.2 (.inr (List.mem_cons_self _ _)))
          · exact hpos x
              (List.mem_append.2 (.inr (List.mem_cons_of_mem _ hx)))
      · intro x hx
        rcases List.mem_append.1 hx with hx | hx
        · exact hsync x (List.mem_append.2 (.inl hx))
        · rcases List.mem_cons.1 hx with rfl | hx
          · simp
          · exact hsync x
              (List.mem_append.2 (.inr (List.mem_cons_of_mem _ hx)))
      · intro x hx
        rcases List.mem_append.1 hx with hx | hx
        · intro n hn
          have := hbound x (List.mem_append.2 (.inl hx)) n hn
          show n < s.nextId + 1
          omega
        · rcases List.mem_cons.1 hx with rfl | hx
          · intro n hn
            simp only [Option.some.injEq] at hn
            show n < s.nextId + 1
            omega
          · intro n hn
            have := hbound x
              (List.mem_append.2 (.inr (List.mem_cons_of_mem _ hx))) n hn
            show n < s.nextId + 1
            omega
      · exact pairwise_idsOk_fresh hpair hbound rfl
    · rw [if_neg hsz]
      have hlt : size < b.size := by omega
      refine ⟨?_, ?_, ?_, ?_, ?_, ?_, htot, ?_, ?_, ?_⟩
      · simp
      · exact @headZero_append_cons (s.blocks.take i) b
          (⟨b.start, size, true, some s.nextId⟩ : Block)
          (s.blocks.drop (i + 1))
          ({ b with start := b.start + size, size := b.size - size } ::
            s.blocks.drop (i + 1)) rfl hhz
      · exact contiguous_split hble true (some s.nextId) hcont
      · show sumSizes _ = s.totalSize
        rw [sumSizes_append, sumSizes_cons, sumSizes_cons] at *
        simp only at *
        omega
      · exact noAdjFree_split hbfree rfl rfl hnaf
      · intro x hx
        rcases List.mem_append.1 hx with hx | hx
        · exact hpos x (List.mem_append.2 (.inl hx))
        · rcases List.mem_cons.1 hx with rfl | hx
          · exact hsize
          · rcases List.mem_cons.1 hx with rfl | hx
            · show 0 < b.size - size
              omega
            · exact hpos x
                (List.mem_append.2 (.inr (List.mem_cons_of_mem _ hx)))
      · intro x hx
        rcases List.mem_append.1 hx with hx | hx
        · exact hsync x (List.mem_append.2 (.inl hx))
        · rcases List.mem_cons.1 hx with rfl | hx
          · simp
          · rcases List.mem_cons.1 hx with rfl | hx
            · exact hsync b
                (List.mem_append.2 (.inr (List.mem_cons_self _ _)))
            · exact hsync x
                (List.mem_append.2 (.inr (List.mem_cons_of_mem _ hx)))
      · intro x hx
        rcases List.mem_append.1 hx with hx | hx
        · intro n hn
          have := hbound x (List.mem_append.2 (.inl hx)) n hn
          show n < s.nextId + 1
          omega
        · rcases List.mem_cons.1 hx with rfl | hx
          · intro n hn
            simp only [Option.some.injEq] at hn
            show n < s.nextId + 1
            omega
          · rcases List.mem_cons.1 hx with rfl | hx
            · intro n hn
              have := hbound b
                (List.mem_append.2 (.inr (List.mem_cons_self _ _))) n hn
              show n < s.nextId + 1
              omega
            · intro n hn
              have := hbound x
                (List.mem_append.2 (.inr (List.mem_cons_of_mem _ hx))) n hn
              show n < s.nextId + 1
              omega
      · exact pairwise_idsOk_split hpair hbound rfl hbid

end MemoryAllocator

namespace MemoryAllocator

theorem contiguous_pairwise_lt :
    ∀ {bs : List Block}, Contiguous bs → (∀ b ∈ bs, 0 < b.size) →
    List.Pairwise (fun a b => a.start < b.start) bs := by
  intro bs
  induction bs with
  | nil => intro _ _; exact List.Pairwise.nil
  | cons b rest ih =>
    intro h hpos
    unfold Contiguous at h
    rw [List.chain'_cons'] at h
    rw [List.pairwise_cons]
    have hrest := ih h.2 (fun x hx => hpos x (List.mem_cons_of_mem _ hx))
    refine ⟨?_, hrest⟩
    match rest with
    | [] => intro y hy; cases hy
    | c :: rest' =>
      have hc : c.start = b.start + b.size := h.1 c (by simp)
      have hbc : b.start < c.start := by
        have := hpos b (List.mem_cons_self _ _)
        omega
      intro y hy
      rcases List.mem_cons.1 hy with rfl | hy
      · exact hbc
      · rw [List.pairwise_cons] at hrest
        exact lt_trans hbc (hrest.1 y hy)

theorem pairwise_mem_rel {α : Type} {P : α → α → Prop} :
    ∀ {l : List α}, List.Pairwise P l → ∀ {a b : α}, a ∈ l → b ∈ l →
      a ≠ b → P a b ∨ P b a := by
  intro l
  induction l with
  | nil => intro _ a b ha; cases ha
  | cons x t ih =>
    intro hp a b ha hb hne
    rw [List.pairwise_cons] at hp
    rcases List.mem_cons.1 ha with rfl | ha'
    · rcases List.mem_cons.1 hb with rfl | hb'
      · exact absurd rfl hne
      · exact .inl (hp.1 b hb')
    · rcases List.mem_cons.1 hb with rfl | hb'
      · exact .inr (hp.1 a ha')
      · exact ih hp.2 ha' hb' hne

theorem defragLE_antisymm_of_pairwise {bs : List Block}
    (hp : List.Pairwise (fun a b => a.start < b.start) bs) :
    ∀ a ∈ bs, ∀ b ∈ bs, defragLE a b → defragLE b a → a = b := by
  intro a ha b hb hab hba
  have hstart : a.start = b.start := by
    rcases hab with ⟨h1, h2⟩ | ⟨h1, h2⟩ <;>
      rcases hba with ⟨h3, h4⟩ | ⟨h3, h4⟩ <;>
      simp_all <;> omega
  by_contra hne
  rcases pairwise_mem_rel hp ha hb hne with hlt | hlt <;> omega

theorem perm_sorted_unique {α : Type} {R : α → α → Prop} :
    ∀ {l₁ l₂ : List α}, l₁.Perm l₂ → List.Pairwise R l₁ →
    List.Pairwise R l₂ →
    (∀ a ∈ l₁, ∀ b ∈ l₁, R a b → R b a → a = b) → l₁ = l₂ := by
  intro l₁
  induction l₁ with
  | nil => intro l₂ hp _ _ _; exact (hp.symm.eq_nil).symm ▸ rfl
  | cons a t ih =>
    intro l₂ hp hs1 hs2 hanti
    match l₂ with
    | [] => exact absurd hp.eq_nil (by simp)
    | b :: t₂ =>
      have hab : a = b := by
        by_contra hne
        have hbmem : b ∈ a :: t := hp.symm.subset (List.mem_cons_self _ _)
        have hamem : a ∈ b :: t₂ := hp.subset (List.mem_cons_self _ _)
        have hbt : b ∈ t := by
          rcases List.mem_cons.1 hbmem with h | h
          · exact absurd h.symm hne
          · exact h
        have hat : a ∈ t₂ := by
          rcases List.mem_cons.1 hamem with h | h
          · exact absurd h hne
          · exact h
        rw [List.pairwise_cons] at hs1 hs2
        have hRab : R a b := hs1.1 b hbt
        have hRba : R b a := hs2.1 a hat
        exact hne (hanti a (List.mem_cons_self _ _) b
          (List.mem_cons_of_mem _ hbt) hRab hRba)
      subst hab
      have htail : t.Perm t₂ := hp.cons_inv
      rw [List.pairwise_cons] at hs1 hs2
      have := ih htail hs1.2 hs2.2
        (fun x hx y hy => hanti x (List.mem_cons_of_mem _ hx) y
          (List.mem_cons_of_mem _ hy))
      rw [this]

theorem insertionSort_partition {bs : List Block}
    (hp : List.Pairwise (fun a b => a.start < b.start) bs) :
    List.insertionSort defragLE bs =
      bs.filter (fun b => b.allocated) ++
      bs.filter (fun b => !b.allocated) := by
  have hperm1 : (List.insertionSort defragLE bs).Perm bs :=
    List.perm_insertionSort defragLE bs
  have hperm2 : (bs.filter (fun b => b.allocated) ++
      bs.filter (fun b => !b.allocated)).Perm bs :=
    List.filter_append_perm _ bs
  have hsorted1 : List.Pairwise defragLE (List.insertionSort defragLE bs) :=
    List.sorted_insertionSort defragLE bs
  have hsorted2 : List.Pairwise defragLE
      (bs.filter (fun b => b.allocated) ++
        bs.filter (fun b => !b.allocated)) := by
    rw [List.pairwise_append]
    refine ⟨?_, ?_, ?_⟩
    · have hsub : List.Pairwise (fun a b => a.start < b.start)
          (bs.filter (fun b => b.allocated)) :=
        List.Pairwise.sublist (List.filter_sublist bs) hp
      refine hsub.imp_of_mem ?_
      intro a b ha hb hlt
      right
      have ha' := (List.mem_filter.1 ha).2
      have hb' := (List.mem_filter.1 hb).2
      simp only at ha' hb'
      constructor
      · rw [ha', hb']
      · omega
    · have hsub : List.Pairwise (fun a b => a.start < b.start)
          (bs.filter (fun b => !b.allocated)) :=
        List.Pairwise.sublist (List.filter_sublist bs) hp
      refine hsub.imp_of_mem ?_
      intro a b ha hb hlt
      right
      have ha' := (List.mem_filter.1 ha).2
      have hb' := (List.mem_filter.1 hb).2
      simp only [Bool.not_eq_true'] at ha' hb'
      constructor
      · rw [ha', hb']
      · omega
    · intro a ha b hb
      left
      have ha' := (List.mem_filter.1 ha).2
      have hb' := (List.mem_filter.1 hb).2
      simp only [Bool.not_eq_true'] at hb'
      simp only at ha'
      exact ⟨ha', hb'⟩
  have hanti := defragLE_antisymm_of_pairwise hp
  refine perm_sorted_unique (hperm1.trans hperm2.symm) hsorted1 hsorted2 ?_
  intro a ha b hb hab hba
  exact hanti a (hperm1.subset ha) b (hperm1.subset hb) hab hba

end MemoryAllocator

namespace MemoryAllocator

theorem layoutBlocks_head_start :
    ∀ {c : Nat} {l : List Block} {y : Block},
      y ∈ (layoutBlocks c l).head? → y.start = c := by
  intro c l y hy
  match l with
  | [] => cases hy
  | b :: rest =>
    rw [layoutBlocks] at hy
    simp only [List.head?_cons, Option.mem_def, Option.some.injEq] at hy
    subst hy
    rfl

theorem layoutBlocks_contiguous : ∀ (c : Nat) (l : List Block),
    Contiguous (layoutBlocks c l) := by
  intro c l
  induction l generalizing c with
  | nil => exact List.chain'_nil
  | cons b rest ih =>
    rw [layoutBlocks]
    unfold Contiguous
    rw [List.chain'_cons']
    refine ⟨fun y hy => ?_, ih (c + b.size)⟩
    have := layoutBlocks_head_start hy
    rw [this]

theorem layoutBlocks_sum : ∀ (c : Nat) (l : List Block),
    sumSizes (layoutBlocks c l) = sumSizes l := by
  intro c l
  induction l generalizing c with
  | nil => rfl
  | cons b rest ih =>
    rw [layoutBlocks, sumSizes_cons, sumSizes_cons, ih]

theorem layoutBlocks_mem : ∀ {c : Nat} {l : List Block} {x : Block},
    x ∈ layoutBlocks c l →
    ∃ b ∈ l, x.size = b.size ∧ x.allocated = b.allocated ∧ x.id = b.id := by
  intro c l
  induction l generalizing c with
  | nil => intro x hx; cases hx
  | cons b rest ih =>
    intro x hx
    rw [layoutBlocks] at hx
    rcases List.mem_cons.1 hx with rfl | hx'
    · exact ⟨b, List.mem_cons_self _ _, rfl, rfl, rfl⟩
    · obtain ⟨d, hd, h1, h2, h3⟩ := ih hx'
      exact ⟨d, List.mem_cons_of_mem _ hd, h1, h2, h3⟩

theorem layoutBlocks_map_id : ∀ (c : Nat) (l : List Block),
    (layoutBlocks c l).map Block.id = l.map Block.id := by
  intro c l
  induction l generalizing c with
  | nil => rfl
  | cons b rest ih =>
    rw [layoutBlocks, List.map_cons, List.map_cons, ih]

theorem layoutBlocks_ne_nil {c : Nat} {l : List Block} (h : l ≠ []) :
    layoutBlocks c l ≠ [] := by
  match l with
  | [] => exact absurd rfl h
  | b :: rest => rw [layoutBlocks]; exact List.cons_ne_nil _ _

theorem pairwise_idsOk_of_map_id_eq {l₁ l₂ : List Block}
    (hmap : l₁.map Block.id = l₂.map Block.id)
    (h : List.Pairwise IdsOk l₂) : List.Pairwise IdsOk l₁ := by
  have h2 : List.Pairwise
      (fun x y => x = none ∨ y = none ∨ x ≠ y) (l₂.map Block.id) := by
    rw [List.pairwise_map]
    exact h
  rw [← hmap, List.pairwise_map] at h2
  exact h2

theorem idsOk_symm : ∀ {a b : Block}, IdsOk a b → IdsOk b a := by
  intro a b h
  rcases h with h | h | h
  · exact .inr (.inl h)
  · exact .inl h
  · exact .inr (.inr (Ne.symm h))

theorem wf_defrag {s : AllocatorState} (h : WF s) : WF (defragment s) := by
  obtain ⟨hne, hhz, hcont, hsum, hnaf, hpos, htot, hsync, hbound, hpair⟩ := h
  have hperm : (List.insertionSort defragLE s.blocks).Perm s.blocks :=
    List.perm_insertionSort defragLE s.blocks
  rw [defragment]
  refine ⟨?_, ?_, ?_, ?_, ?_, ?_, htot, ?_, ?_, ?_⟩
  · apply mergeGo_ne_nil
    apply layoutBlocks_ne_nil
    intro hnil
    rw [hnil] at hperm
    exact hne hperm.symm.eq_nil
  · apply mergeGo_headZero
    intro y hy
    exact layoutBlocks_head_start hy
  · exact mergeGo_contiguous (layoutBlocks_contiguous 0 _) _
  · show sumSizes _ = s.totalSize
    rw [mergeAdjacentFreeBlocks, mergeGo_sum, layoutBlocks_sum]
    rw [← hsum]
    unfold sumSizes
    exact List.Perm.sum_eq (hperm.map Block.size)
  · exact mergeGo_noAdjFree _ (Nat.le_succ _)
  · apply mergeGo_sizes_pos
    intro x hx
    obtain ⟨b, hb, h1, _, _⟩ := layoutBlocks_mem hx
    rw [h1]
    exact hpos b (hperm.subset hb)
  · refine @mergeGo_alloc_id_pred
      (fun al oid => al = true ↔ oid ≠ none) _ _ ?_
    intro x hx
    obtain ⟨b, hb, _, h2, h3⟩ := layoutBlocks_mem hx
    rw [h2, h3]
    exact hsync b (hperm.subset hb)
  · refine @mergeGo_alloc_id_pred
      (fun al oid => ∀ n, oid = some n → n < s.nextId) _ _ ?_
    intro x hx
    obtain ⟨b, hb, _, _, h3⟩ := layoutBlocks_mem hx
    rw [h3]
    exact hbound b (hperm.subset hb)
  · apply mergeGo_pairwise_idsOk
    apply pairwise_idsOk_of_map_id_eq (layoutBlocks_map_id 0 _)
    exact (List.Perm.pairwise_iff idsOk_symm hperm).2 hpair

end MemoryAllocator

namespace MemoryAllocator

theorem reachable_wf {s : AllocatorState} (h : Reachable s) : WF s := by
  induction h with
  | init T hT => exact wf_init hT
  | alloc size h hsize heq ih => exact wf_alloc ih hsize heq
  | free aid h ih => exact wf_free aid ih
  | defrag h ih => exact wf_defrag ih
  | reset arg h ih => exact wf_reset arg ih
  | setStrat st h ih => exact wf_setStrategy st ih

theorem freeBlocks_none_iff {aid : Option Nat} :
    ∀ {l : List Block}, freeBlocks aid l = none ↔ ∀ b ∈ l, b.id ≠ aid := by
  intro l
  induction l with
  | nil => simp [freeBlocks]
  | cons b rest ih =>
    rw [freeBlocks]
    split
    · rename_i hb
      simp only [iff_false_intro (Option.some_ne_none _), false_iff]
      intro hall
      exact hall b (List.mem_cons_self _ _) hb
    · rename_i hb
      rw [show (Option.map (fun x => b :: x) (freeBlocks aid rest) = none) ↔
          freeBlocks aid rest = none by
        cases freeBlocks aid rest <;> simp]
      rw [ih]
      constructor
      · intro hall x hx
        rcases List.mem_cons.1 hx with rfl | hx
        · exact hb
        · exact hall x hx
      · intro hall x hx
        exact hall x (List.mem_cons_of_mem _ hx)

end MemoryAllocator

open MemoryAllocator

/-- C1: after any finite sequence of allocate (positive sizes), free,
defragment and reset calls from the initial state, the block list is
nonempty, its first block starts at 0, consecutive blocks satisfy
`b[i].start + b[i].size = b[i+1].start`, the block sizes sum to
`total_size`, and no two adjacent blocks are both free. -/
theorem allocator_invariants_preserved (s : AllocatorState)
    (h : Reachable s) :
    s.blocks ≠ [] ∧ (∀ b ∈ s.blocks.head?, b.start = 0) ∧
    Contiguous s.blocks ∧ sumSizes s.blocks = s.totalSize ∧
    NoAdjFree s.blocks := by
  obtain ⟨h1, h2, h3, h4, h5, _⟩ := reachable_wf h
  exact ⟨h1, h2, h3, h4, h5⟩

/-- Witness for C1 at the initial state of capacity 10. -/
theorem allocator_invariants_preserved_witness :
    Reachable (MemoryAllocator.init 10) ∧
    ((MemoryAllocator.init 10).blocks ≠ [] ∧
      (∀ b ∈ (MemoryAllocator.init 10).blocks.head?, b.start = 0) ∧
      Contiguous (MemoryAllocator.init 10).blocks ∧
      sumSizes (MemoryAllocator.init 10).blocks =
        (MemoryAllocator.init 10).totalSize ∧
      NoAdjFree (MemoryAllocator.init 10).blocks) :=
  ⟨Reachable.init 10 (by decide),
    allocator_invariants_preserved _ (Reachable.init 10 (by decide))⟩

/-- C2 counterexample material: the sequence
`new MemoryAllocator(2); setStrategy(next-fit); allocate(1); allocate(1);
free(1); free(2)` reaches a state whose block list has length 1 while
`lastSearchIndex` is 1, so the cursor is out of bounds, and the next
`allocate` under next-fit reads `blocks[1]` (undefined) and throws
(modelled by `allocate` returning `none`). -/
theorem lastSearchIndex_out_of_bounds :
    Reachable
      { totalSize := 2
        blocks := [⟨0, 2, false, none⟩]
        allocations := [⟨1, 1, true⟩, ⟨2, 1, true⟩]
        nextId := 3
        strategy := .nextFit
        lastSearchIndex := 1 } ∧
    ¬((1 : Nat) < (1 : Nat)) ∧
    allocate 1
      { totalSize := 2
        blocks := [⟨0, 2, false, none⟩]
        allocations := [⟨1, 1, true⟩, ⟨2, 1, true⟩]
        nextId := 3
        strategy := .nextFit
        lastSearchIndex := 1 } = none := by
  refine ⟨?_, by decide, by decide⟩
  have h0 : Reachable (setStrategy Strategy.nextFit (MemoryAllocator.init 2)) :=
    Reachable.setStrat Strategy.nextFit (Reachable.init 2 (by decide))
  have h1 := Reachable.alloc 1 h0 (by decide)
    (show allocate 1 (setStrategy Strategy.nextFit (MemoryAllocator.init 2)) =
      some (some 1,
        { totalSize := 2
          blocks := [⟨0, 1, true, some 1⟩, ⟨1, 1, false, none⟩]
          allocations := [⟨1, 1, false⟩]
          nextId := 2
          strategy := .nextFit
          lastSearchIndex := 0 }) from by decide)
  have h2 := Reachable.alloc 1 h1 (by decide)
    (show allocate 1
        { totalSize := 2
          blocks := [⟨0, 1, true, some 1⟩, ⟨1, 1, false, none⟩]
          allocations := [⟨1, 1, false⟩]
          nextId := 2
          strategy := .nextFit
          lastSearchIndex := 0 } =
      some (some 2,
        { totalSize := 2
          blocks := [⟨0, 1, true, some 1⟩, ⟨1, 1, true, some 2⟩]
          allocations := [⟨1, 1, false⟩, ⟨2, 1, false⟩]
          nextId := 3
          strategy := .nextFit
          lastSearchIndex := 1 }) from by decide)
  have h3 := Reachable.free (some 1) h2
  have h4 := Reachable.free (some 2) h3
  exact h4

/-- C3: the two non-trivially-bounded loops of the allocator always
terminate: the next-fit `do/while` scan finishes within
`blocks.length + 1` iterations on any nonempty block list and cursor,
and the coalescing loop of `mergeAdjacentFreeBlocks` finishes within
`2 * blocks.length + 1` iterations (returning the recursive merge).
All other operations are total structural computations. -/
theorem allocator_loops_terminate :
    (∀ (bs : List Block) (size startIndex : Nat), bs ≠ [] →
      nextFitLoop bs size startIndex (bs.length + 1) startIndex ≠ none) ∧
    (∀ bs : List Block,
      mergeLoop (2 * bs.length + 1) 0 bs = some (mergeAdjacentFreeBlocks bs)) :=
  ⟨nextFitLoop_terminates, mergeLoop_eq_mergeGo⟩

/-- Witness for C3 on a concrete one-block list. -/
theorem allocator_loops_terminate_witness :
    (([⟨0, 4, false, none⟩] : List Block) ≠ [] ∧
      nextFitLoop [⟨0, 4, false, none⟩] 1 0 2 0 ≠ none) ∧
    mergeLoop 3 0 [⟨0, 4, false, none⟩] =
      some (mergeAdjacentFreeBlocks [⟨0, 4, false, none⟩]) :=
  ⟨⟨by decide, allocator_loops_terminate.1 [⟨0, 4, false, none⟩] 1 0 (by decide)⟩,
    allocator_loops_terminate.2 [⟨0, 4, false, none⟩]⟩

/-- C4: when the active strategy's search reports no eligible free
block, `allocate` returns the failure value (`null`, modelled as the
`none` result) and the state — blocks, allocations, next id and search
cursor — is exactly the state before the call. -/
theorem allocate_out_of_memory (s : AllocatorState) (size : Nat)
    (h : Reachable s) (hsize : 0 < size)
    (hsearch : searchBlock s size = SearchOutcome.notFound) :
    allocate size s = some (none, s) := by
  rw [allocate, hsearch]

/-- Witness for C4: requesting 2 bytes from a fresh 1-byte pool. -/
theorem allocate_out_of_memory_witness :
    Reachable (MemoryAllocator.init 1) ∧ 0 < 2 ∧
    searchBlock (MemoryAllocator.init 1) 2 = SearchOutcome.notFound ∧
    allocate 2 (MemoryAllocator.init 1) = some (none, MemoryAllocator.init 1) :=
  ⟨Reachable.init 1 (by decide), by decide, by decide,
    allocate_out_of_memory _ 2 (Reachable.init 1 (by decide)) (by decide)
      (by decide)⟩

namespace MemoryAllocator

theorem free_eq_false_of_no_match {aid : Option Nat} {s : AllocatorState}
    (hnone : freeBlocks aid s.blocks = none) :
    MemoryAllocator.free aid s = (false, s) := by
  rw [MemoryAllocator.free, hnone]

end MemoryAllocator

/-- C5: freeing a currently allocated id returns `true`; an immediate
second `free` of the same id returns `false` and leaves the state
exactly as after the first call; freeing an id that is not currently
allocated returns `false` and changes nothing. -/
theorem free_idempotent (s : AllocatorState) (n : Nat) (h : Reachable s) :
    ((∃ b ∈ s.blocks, b.id = some n ∧ b.allocated = true) →
      (MemoryAllocator.free (some n) s).1 = true ∧
      (MemoryAllocator.free (some n)
        (MemoryAllocator.free (some n) s).2).1 = false ∧
      (MemoryAllocator.free (some n)
        (MemoryAllocator.free (some n) s).2).2 =
        (MemoryAllocator.free (some n) s).2) ∧
    ((∀ b ∈ s.blocks, ¬(b.id = some n ∧ b.allocated = true)) →
      MemoryAllocator.free (some n) s = (false, s)) := by
  obtain ⟨hne, hhz, hcont, hsum, hnaf, hpos, htot, hsync, hbound, hpair⟩ :=
    reachable_wf h
  constructor
  · rintro ⟨b, hb, hbid, hballoc⟩
    match hfb : freeBlocks (some n) s.blocks with
    | none =>
      rw [freeBlocks_none_iff] at hfb
      exact absurd hbid (hfb b hb)
    | some bs1 =>
      have hstep : MemoryAllocator.free (some n) s =
          (true, { s with blocks := mergeAdjacentFreeBlocks bs1,
                          allocations := markFreed (some n) s.allocations }) := by
        rw [MemoryAllocator.free, hfb]
      obtain ⟨l₁, c, l₂, he1, he2, he3, he4⟩ := freeBlocks_eq hfb
      have hnotin : ∀ x ∈ mergeAdjacentFreeBlocks bs1, x.id ≠ some n := by
        intro x hx
        obtain ⟨d, hd, _, hdid, _⟩ := mergeGo_mem _ hx
        rw [hdid]
        subst he3
        rcases List.mem_append.1 hd with hd | hd
        · exact he4 d hd
        · rcases List.mem_cons.1 hd with rfl | hd
          · simp
          · rw [he1, List.pairwise_append] at hpair
            have h2 := hpair.2.1
            rw [List.pairwise_cons] at h2
            rcases h2.1 d hd with hcnone | hdnone | hne'
            · rw [he2] at hcnone; exact absurd hcnone (by simp)
            · rw [hdnone]; simp
            · rw [he2] at hne'
              exact Ne.symm hne'
      have hsecond : MemoryAllocator.free (some n)
          { s with blocks := mergeAdjacentFreeBlocks bs1,
                   allocations := markFreed (some n) s.allocations } =
          (false, { s with blocks := mergeAdjacentFreeBlocks bs1,
                           allocations := markFreed (some n) s.allocations }) :=
        MemoryAllocator.free_eq_false_of_no_match
          (freeBlocks_none_iff.2 hnotin)
      rw [hstep]
      exact ⟨rfl, by rw [hsecond], by rw [hsecond]⟩
  · intro hnob
    have hnone : freeBlocks (some n) s.blocks = none := by
      rw [freeBlocks_none_iff]
      intro b hb hbid
      have halloc : b.allocated = true := by
        have hs := hsync b hb
        exact hs.2 (by rw [hbid]; simp)
      exact hnob b hb ⟨hbid, halloc⟩
    exact MemoryAllocator.free_eq_false_of_no_match hnone

/-- A reachable two-block state: one allocated byte (id 1) followed by
one free byte, obtained by `allocate(1)` on a fresh 2-byte pool. -/
def exampleTwoBlock : AllocatorState :=
  { totalSize := 2
    blocks := [⟨0, 1, true, some 1⟩, ⟨1, 1, false, none⟩]
    allocations := [⟨1, 1, false⟩]
    nextId := 2
    strategy := .firstFit
    lastSearchIndex := 0 }

theorem exampleTwoBlock_reachable : Reachable exampleTwoBlock :=
  Reachable.alloc 1 (Reachable.init 2 (by decide)) (by decide)
    (show allocate 1 (MemoryAllocator.init 2) = some (some 1, exampleTwoBlock)
      from by decide)

/-- Witness for C5 in a state with one allocated and one free block. -/
theorem free_idempotent_witness :
    Reachable exampleTwoBlock ∧
    (((∃ b ∈ exampleTwoBlock.blocks, b.id = some 1 ∧ b.allocated = true) →
      (MemoryAllocator.free (some 1) exampleTwoBlock).1 = true ∧
      (MemoryAllocator.free (some 1)
        (MemoryAllocator.free (some 1) exampleTwoBlock).2).1 = false ∧
      (MemoryAllocator.free (some 1)
        (MemoryAllocator.free (some 1) exampleTwoBlock).2).2 =
        (MemoryAllocator.free (some 1) exampleTwoBlock).2) ∧
    ((∀ b ∈ exampleTwoBlock.blocks, ¬(b.id = some 1 ∧ b.allocated = true)) →
      MemoryAllocator.free (some 1) exampleTwoBlock =
        (false, exampleTwoBlock))) :=
  ⟨exampleTwoBlock_reachable,
    free_idempotent exampleTwoBlock 1 exampleTwoBlock_reachable⟩

/-- C10: `free(null)` on a reachable state that has at least one free
block returns `true`, because the lookup compares only the block's
owner id field and free blocks carry the null id. -/
theorem free_null_returns_true (s : AllocatorState) (h : Reachable s)
    (hfree : ∃ b ∈ s.blocks, b.allocated = false) :
    (MemoryAllocator.free none s).1 = true := by
  obtain ⟨b, hb, hbf⟩ := hfree
  have hsync := (reachable_wf h).2.2.2.2.2.2.2.1
  have hbid : b.id = none := by
    have hs := hsync b hb
    rw [hbf] at hs
    by_contra hc
    exact absurd (hs.2 hc) (by simp)
  match hfb : freeBlocks none s.blocks with
  | none =>
    rw [freeBlocks_none_iff] at hfb
    exact absurd hbid (hfb b hb)
  | some bs1 =>
    rw [MemoryAllocator.free, hfb]

/-- Witness for C10 at the initial state. -/
theorem free_null_returns_true_witness :
    Reachable (MemoryAllocator.init 1) ∧
    (∃ b ∈ (MemoryAllocator.init 1).blocks, b.allocated = false) ∧
    (MemoryAllocator.free none (MemoryAllocator.init 1)).1 = true :=
  ⟨Reachable.init 1 (by decide), by decide,
    free_null_returns_true _ (Reachable.init 1 (by decide)) (by decide)⟩

/-- C6: a successful `allocate` for a request strictly smaller than the
chosen free block splits it: at the chosen position the new allocated
block `{start := old start, size := request, owner := new id}` is
immediately followed by the free remainder
`{start := old start + request, size := old size - request}`; an exact
fit instead marks the chosen block allocated in place with the new id. -/
theorem allocate_split_correct (s : AllocatorState) (size i : Nat)
    (b : Block) (h : Reachable s) (hpos : 0 < size)
    (hsearch : searchBlock s size = SearchOutcome.found i)
    (hb : s.blocks[i]? = some b) :
    (size < b.size →
      allocate size s = some (some s.nextId,
        { s with
            blocks := s.blocks.take i ++
              (⟨b.start, size, true, some s.nextId⟩ : Block) ::
              (⟨b.start + size, b.size - size, false, none⟩ : Block) ::
              s.blocks.drop (i + 1)
            allocations := s.allocations ++ [⟨s.nextId, size, false⟩]
            nextId := s.nextId + 1
            lastSearchIndex := i })) ∧
    (b.size = size →
      allocate size s = some (some s.nextId,
        { s with
            blocks := s.blocks.take i ++
              { b with allocated := true, id := some s.nextId } ::
              s.blocks.drop (i + 1)
            allocations := s.allocations ++ [⟨s.nextId, size, false⟩]
            nextId := s.nextId + 1
            lastSearchIndex := i })) := by
  obtain ⟨b', hb', hbf, hble⟩ := searchBlock_found hsearch
  have hbb : b = b' := by rw [hb] at hb'; exact Option.some.inj hb'
  subst hbb
  have hsync := (reachable_wf h).2.2.2.2.2.2.2.1
  have hbi : i < s.blocks.length := by
    by_contra hno
    rw [List.getElem?_eq_none (by omega)] at hb
    exact Option.noConfusion hb
  have hbmem : b ∈ s.blocks := by
    have hg := List.getElem?_eq_getElem hbi
    rw [hb] at hg
    rw [Option.some.inj hg]
    exact List.getElem_mem _
  have hbid : b.id = none := by
    have hs := hsync b hbmem
    rw [hbf] at hs
    by_contra hc
    exact absurd (hs.2 hc) (by simp)
  have hstep := allocate_found hsearch hb
  constructor
  · intro hlt
    rw [hstep, if_neg (by omega), hbf, hbid]
  · intro hsz
    rw [hstep, if_pos hsz]

/-- Witness for C6: splitting the single free block of a fresh 3-byte
pool with a 1-byte request. -/
theorem allocate_split_correct_witness :
    Reachable (MemoryAllocator.init 3) ∧ 0 < 1 ∧
    searchBlock (MemoryAllocator.init 3) 1 = SearchOutcome.found 0 ∧
    (MemoryAllocator.init 3).blocks[0]? = some ⟨0, 3, false, none⟩ ∧
    ((1 < (⟨0, 3, false, none⟩ : Block).size →
      allocate 1 (MemoryAllocator.init 3) = some (some 1,
        { MemoryAllocator.init 3 with
            blocks := (MemoryAllocator.init 3).blocks.take 0 ++
              (⟨0, 1, true, some 1⟩ : Block) ::
              (⟨0 + 1, 3 - 1, false, none⟩ : Block) ::
              (MemoryAllocator.init 3).blocks.drop 1
            allocations := (MemoryAllocator.init 3).allocations ++
              [⟨1, 1, false⟩]
            nextId := 2
            lastSearchIndex := 0 })) ∧
    ((⟨0, 3, false, none⟩ : Block).size = 1 →
      allocate 1 (MemoryAllocator.init 3) = some (some 1,
        { MemoryAllocator.init 3 with
            blocks := (MemoryAllocator.init 3).blocks.take 0 ++
              { (⟨0, 3, false, none⟩ : Block) with
                  allocated := true, id := some 1 } ::
              (MemoryAllocator.init 3).blocks.drop 1
            allocations := (MemoryAllocator.init 3).allocations ++
              [⟨1, 1, false⟩]
            nextId := 2
            lastSearchIndex := 0 }))) :=
  ⟨Reachable.init 3 (by decide), by decide, by decide, by decide,
    allocate_split_correct (MemoryAllocator.init 3) 1 0 ⟨0, 3, false, none⟩
      (Reachable.init 3 (by decide)) (by decide) (by decide) (by decide)⟩

/-- C8: with a valid cursor, the next-fit search returns the first
eligible index of the circular scan starting at the cursor (its own
block first when eligible), and reports not-found after exactly one
full circular pass when no block is eligible. -/
theorem nextFit_circular_scan (s : AllocatorState) (size : Nat)
    (hpos : 0 < size) (hcur : s.lastSearchIndex < s.blocks.length) :
    (nextFit s size =
      match (circularIndices s.lastSearchIndex s.blocks.length).find?
          (eligible s.blocks size) with
      | some j => SearchOutcome.found j
      | none => SearchOutcome.notFound) ∧
    (eligible s.blocks size s.lastSearchIndex = true →
      nextFit s size = SearchOutcome.found s.lastSearchIndex) ∧
    ((∀ j, eligible s.blocks size j = false) →
      nextFit s size = SearchOutcome.notFound) := by
  have hmain := nextFit_eq_circularScan s size hcur
  refine ⟨hmain, ?_, ?_⟩
  · intro helig
    rw [hmain]
    have hsplit : s.blocks.length - s.lastSearchIndex =
        (s.blocks.length - s.lastSearchIndex - 1) + 1 := by omega
    rw [circularIndices, hsplit, List.range'_succ, List.cons_append,
      List.find?_cons_of_pos _ helig]
  · intro hnone
    rw [hmain]
    have hfnone : (circularIndices s.lastSearchIndex
        s.blocks.length).find? (eligible s.blocks size) = none := by
      rw [List.find?_eq_none]
      intro x hx
      rw [hnone x]
      simp
    rw [hfnone]

/-- Witness for C8 on a concrete two-block state with the cursor at the
second block. -/
theorem nextFit_circular_scan_witness :
    0 < 1 ∧
    ({ totalSize := 3
       blocks := [⟨0, 1, true, some 1⟩, ⟨1, 2, false, none⟩]
       allocations := [⟨1, 1, false⟩]
       nextId := 2
       strategy := .nextFit
       lastSearchIndex := 1 } : AllocatorState).lastSearchIndex <
      ({ totalSize := 3
         blocks := [⟨0, 1, true, some 1⟩, ⟨1, 2, false, none⟩]
         allocations := [⟨1, 1, false⟩]
         nextId := 2
         strategy := .nextFit
         lastSearchIndex := 1 } : AllocatorState).blocks.length ∧
    (nextFit
      { totalSize := 3
        blocks := [⟨0, 1, true, some 1⟩, ⟨1, 2, false, none⟩]
        allocations := [⟨1, 1, false⟩]
        nextId := 2
        strategy := .nextFit
        lastSearchIndex := 1 } 1 =
      match (circularIndices 1 2).find?
          (eligible [⟨0, 1, true, some 1⟩, ⟨1, 2, false, none⟩] 1) with
      | some j => SearchOutcome.found j
      | none => SearchOutcome.notFound) := by
  refine ⟨by decide, by decide, ?_⟩
  exact (nextFit_circular_scan
    { totalSize := 3
      blocks := [⟨0, 1, true, some 1⟩, ⟨1, 2, false, none⟩]
      allocations := [⟨1, 1, false⟩]
      nextId := 2
      strategy := .nextFit
      lastSearchIndex := 1 } 1 (by decide) (by decide)).1

namespace MemoryAllocator

theorem mAFB_cons_alloc {a : Block} (ha : a.allocated = true)
    (l : List Block) :
    mergeAdjacentFreeBlocks (a :: l) = a :: mergeAdjacentFreeBlocks l := by
  match l with
  | [] => rfl
  | b :: rest =>
    rw [mergeAdjacentFreeBlocks_cons_cons, if_neg (by simp [ha])]

theorem mAFB_alloc_prefix :
    ∀ (A l : List Block), (∀ a ∈ A, a.allocated = true) →
    mergeAdjacentFreeBlocks (A ++ l) = A ++ mergeAdjacentFreeBlocks l := by
  intro A
  induction A with
  | nil => intro l _; rfl
  | cons a A' ih =>
    intro l hA
    rw [List.cons_append, mAFB_cons_alloc (hA a (List.mem_cons_self _ _)),
      ih l (fun x hx => hA x (List.mem_cons_of_mem _ hx))]
    rfl

theorem mAFB_all_free :
    ∀ (l : List Block) (f : Block), f.allocated = false →
    (∀ x ∈ l, x.allocated = false) →
    mergeAdjacentFreeBlocks (f :: l) =
      [{ f with size := f.size + sumSizes l }] := by
  intro l
  induction l with
  | nil =>
    intro f hf _
    have hz : f.size + sumSizes [] = f.size := by simp [sumSizes]
    rw [hz]
    rcases f with ⟨f1, f2, f3, f4⟩
    rfl
  | cons g rest ih =>
    intro f hf hl
    rw [mergeAdjacentFreeBlocks_cons_cons,
      if_pos ⟨hf, hl g (List.mem_cons_self _ _)⟩,
      ih { f with size := f.size + g.size } hf
        (fun x hx => hl x (List.mem_cons_of_mem _ hx))]
    simp [sumSizes_cons, Nat.add_assoc]

theorem layoutBlocks_append : ∀ (c : Nat) (l₁ l₂ : List Block),
    layoutBlocks c (l₁ ++ l₂) =
      layoutBlocks c l₁ ++ layoutBlocks (c + sumSizes l₁) l₂ := by
  intro c l₁
  induction l₁ generalizing c with
  | nil =>
    intro l₂
    have : c + sumSizes [] = c := by simp [sumSizes]
    rw [this]
    rfl
  | cons b l₁' ih =>
    intro l₂
    rw [List.cons_append, layoutBlocks, ih (c + b.size) l₂, layoutBlocks,
      sumSizes_cons, ← Nat.add_assoc, List.cons_append]

theorem layoutBlocks_map_szid : ∀ (c : Nat) (l : List Block),
    (layoutBlocks c l).map (fun b => (b.size, b.id)) =
      l.map (fun b => (b.size, b.id)) := by
  intro c l
  induction l generalizing c with
  | nil => rfl
  | cons b rest ih =>
    rw [layoutBlocks, List.map_cons, List.map_cons, ih]

theorem defragment_blocks_eq (s : AllocatorState) (h : Reachable s) :
    (defragment s).blocks =
      layoutBlocks 0 (s.blocks.filter fun b => b.allocated) ++
      (if (s.blocks.filter fun b => !b.allocated) = [] then []
       else [⟨sumSizes (s.blocks.filter fun b => b.allocated),
             sumSizes (s.blocks.filter fun b => !b.allocated),
             false, none⟩]) := by
  obtain ⟨hne, hhz, hcont, hsum, hnaf, hpos, htot, hsync, hbound, hpair⟩ :=
    reachable_wf h
  have hplt := contiguous_pairwise_lt hcont hpos
  show mergeAdjacentFreeBlocks
      (layoutBlocks 0 (List.insertionSort defragLE s.blocks)) = _
  rw [insertionSort_partition hplt, layoutBlocks_append,
    mAFB_alloc_prefix _ _ (fun a ha => by
      obtain ⟨b, hb, _, h2, _⟩ := layoutBlocks_mem ha
      rw [h2]
      exact (List.mem_filter.1 hb).2)]
  congr 1
  match hF : s.blocks.filter fun b => !b.allocated with
  | [] => rw [hF]; rfl
  | f :: F' =>
    rw [hF, if_neg (by simp)]
    have hffree : f.allocated = false := by
      have := (List.mem_filter.1 (hF ▸ List.mem_cons_self f F' :
        f ∈ s.blocks.filter fun b => !b.allocated)).2
      simpa using this
    have hfid : f.id = none := by
      have hmem : f ∈ s.blocks :=
        List.mem_of_mem_filter (hF ▸ List.mem_cons_self f F' :
          f ∈ s.blocks.filter fun b => !b.allocated)
      have hs := hsync f hmem
      rw [hffree] at hs
      by_contra hc
      exact absurd (hs.2 hc) (by simp)
    rw [layoutBlocks]
    rw [mAFB_all_free _ _ (show ({ f with
        start := 0 + sumSizes (s.blocks.filter fun b => b.allocated) } :
          Block).allocated = false from hffree)
      (fun x hx => by
        obtain ⟨b, hb, _, h2, _⟩ := layoutBlocks_mem hx
        rw [h2]
        have hbmem : b ∈ s.blocks.filter fun b => !b.allocated := by
          rw [hF]
          exact List.mem_cons_of_mem _ hb
        have := (List.mem_filter.1 hbmem).2
        simpa using this)]
    rw [layoutBlocks_sum, sumSizes_cons]
    rcases f with ⟨f1, f2, f3, f4⟩
    simp only at hffree hfid
    subst hffree
    subst hfid
    simp

end MemoryAllocator

/-- C7 (amended): `defragment` reorders the blocks so that every
allocated block precedes every free block, preserves the relative
order and the (size, owner id) data of the allocated blocks,
recomputes starts contiguously from 0, leaves at most one free block
(none when there are no free bytes), preserves the total number of
free bytes, and leaves the allocation history unchanged.  (The
original claim also asserted the multiset of (size, allocated, id)
triples of all blocks is unchanged; that part is false — see the
counterexample — because the free blocks are merged into one.) -/
theorem defragment_correct (s : AllocatorState) (h : Reachable s) :
    (∃ A' F', (defragment s).blocks = A' ++ F' ∧
      (∀ x ∈ A', x.allocated = true) ∧ (∀ x ∈ F', x.allocated = false)) ∧
    (((defragment s).blocks.filter fun b => b.allocated).map
        (fun b => (b.size, b.id)) =
      (s.blocks.filter fun b => b.allocated).map (fun b => (b.size, b.id))) ∧
    (∀ b ∈ (defragment s).blocks.head?, b.start = 0) ∧
    Contiguous (defragment s).blocks ∧
    sumSizes (defragment s).blocks = sumSizes s.blocks ∧
    ((defragment s).blocks.filter fun b => !b.allocated).length ≤ 1 ∧
    (sumSizes (s.blocks.filter fun b => !b.allocated) = 0 →
      ((defragment s).blocks.filter fun b => !b.allocated).length = 0) ∧
    sumSizes ((defragment s).blocks.filter fun b => !b.allocated) =
      sumSizes (s.blocks.filter fun b => !b.allocated) ∧
    (defragment s).allocations = s.allocations := by
  have E := defragment_blocks_eq s h
  obtain ⟨hne, hhz, hcont, hsum, hnaf, hpos, htot, hsync, hbound, hpair⟩ :=
    reachable_wf h
  have W := reachable_wf (Reachable.defrag h)
  have hLA : ∀ x ∈ layoutBlocks 0 (s.blocks.filter fun b => b.allocated),
      x.allocated = true := by
    intro x hx
    obtain ⟨b, hb, _, h2, _⟩ := layoutBlocks_mem hx
    rw [h2]
    exact (List.mem_filter.1 hb).2
  have htail : ∀ x ∈ (if (s.blocks.filter fun b => !b.allocated) = []
      then ([] : List Block)
      else [⟨sumSizes (s.blocks.filter fun b => b.allocated),
            sumSizes (s.blocks.filter fun b => !b.allocated),
            false, none⟩]), x.allocated = false := by
    split
    · intro x hx; cases hx
    · intro x hx
      rw [List.mem_singleton] at hx
      subst hx
      rfl
  have hfilterfree : (defragment s).blocks.filter (fun b => !b.allocated) =
      (if (s.blocks.filter fun b => !b.allocated) = []
       then ([] : List Block)
       else [⟨sumSizes (s.blocks.filter fun b => b.allocated),
             sumSizes (s.blocks.filter fun b => !b.allocated),
             false, none⟩]) := by
    rw [E, List.filter_append]
    have h1 : (layoutBlocks 0 (s.blocks.filter fun b => b.allocated)).filter
        (fun b => !b.allocated) = [] := by
      rw [List.filter_eq_nil_iff]
      intro x hx
      rw [hLA x hx]
      simp
    rw [h1, List.nil_append]
    split
    · rfl
    · simp
  have hfilteralloc : (defragment s).blocks.filter (fun b => b.allocated) =
      layoutBlocks 0 (s.blocks.filter fun b => b.allocated) := by
    rw [E, List.filter_append]
    have h1 : (layoutBlocks 0 (s.blocks.filter fun b => b.allocated)).filter
        (fun b => b.allocated) =
        layoutBlocks 0 (s.blocks.filter fun b => b.allocated) :=
      List.filter_eq_self.2 (fun x hx => by rw [hLA x hx])
    have h2 : (if (s.blocks.filter fun b => !b.allocated) = []
        then ([] : List Block)
        else [⟨sumSizes (s.blocks.filter fun b => b.allocated),
              sumSizes (s.blocks.filter fun b => !b.allocated),
              false, none⟩]).filter (fun b => b.allocated) = [] := by
      split
      · rfl
      · simp
    rw [h1, h2, List.append_nil]
  refine ⟨⟨_, _, E, hLA, htail⟩, ?_, ?_, ?_, ?_, ?_, ?_, ?_, rfl⟩
  · rw [hfilteralloc, layoutBlocks_map_szid]
  · exact W.2.1
  · exact W.2.2.1
  · have hW := W.2.2.2.1
    rw [hW]
    exact hsum.symm
  · rw [hfilterfree]
    split
    · simp
    · simp
  · intro hzero
    have hFnil : (s.blocks.filter fun b => !b.allocated) = [] := by
      rcases hF : s.blocks.filter (fun b => !b.allocated) with _ | ⟨f, F'⟩
      · exact hF
      · exfalso
        have hfmem : f ∈ s.blocks := List.mem_of_mem_filter
          (by rw [hF]; exact List.mem_cons_self f F')
        have hfpos := hpos f hfmem
        rw [hF, sumSizes_cons] at hzero
        omega
    rw [hfilterfree, if_pos hFnil]
    rfl
  · rw [hfilterfree]
    split
    · rename_i hF
      rw [hF]
    · simp [sumSizes]

/-- A reachable fragmented state: free byte at 0, allocated byte (id 2)
at 1, free byte at 2 — obtained by two 1-byte allocations on a 3-byte
pool followed by freeing the first. -/
def exampleFragmented : AllocatorState :=
  { totalSize := 3
    blocks := [⟨0, 1, false, none⟩, ⟨1, 1, true, some 2⟩,
               ⟨2, 1, false, none⟩]
    allocations := [⟨1, 1, true⟩, ⟨2, 1, false⟩]
    nextId := 3
    strategy := .firstFit
    lastSearchIndex := 1 }

theorem exampleFragmented_reachable : Reachable exampleFragmented := by
  have h1 := Reachable.alloc 1 (Reachable.init 3 (by decide)) (by decide)
    (show allocate 1 (MemoryAllocator.init 3) =
      some (some 1,
        { totalSize := 3
          blocks := [⟨0, 1, true, some 1⟩, ⟨1, 2, false, none⟩]
          allocations := [⟨1, 1, false⟩]
          nextId := 2
          strategy := .firstFit
          lastSearchIndex := 0 }) from by decide)
  have h2 := Reachable.alloc 1 h1 (by decide)
    (show allocate 1
        { totalSize := 3
          blocks := [⟨0, 1, true, some 1⟩, ⟨1, 2, false, none⟩]
          allocations := [⟨1, 1, false⟩]
          nextId := 2
          strategy := .firstFit
          lastSearchIndex := 0 } =
      some (some 2,
        { totalSize := 3
          blocks := [⟨0, 1, true, some 1⟩, ⟨1, 1, true, some 2⟩,
                     ⟨2, 1, false, none⟩]
          allocations := [⟨1, 1, false⟩, ⟨2, 1, false⟩]
          nextId := 3
          strategy := .firstFit
          lastSearchIndex := 1 }) from by decide)
  exact Reachable.free (some 1) h2

/-- C7 counterexample: on `exampleFragmented` (blocks free/allocated/free
of size 1 each), `defragment` merges the two free blocks, so the
multiset of (size, allocated, owner id) triples of the blocks is NOT
preserved, contrary to the claim as stated. -/
theorem defragment_multiset_changed :
    Reachable exampleFragmented ∧
    ¬(Multiset.ofList ((defragment exampleFragmented).blocks.map
        (fun b => (b.size, b.allocated, b.id))) =
      Multiset.ofList (exampleFragmented.blocks.map
        (fun b => (b.size, b.allocated, b.id)))) :=
  ⟨exampleFragmented_reachable, by decide⟩

/-- Witness for C7 (amended) at `exampleFragmented`. -/
theorem defragment_correct_witness :
    Reachable exampleFragmented ∧
    ((∃ A' F', (defragment exampleFragmented).blocks = A' ++ F' ∧
      (∀ x ∈ A', x.allocated = true) ∧ (∀ x ∈ F', x.allocated = false)) ∧
    (((defragment exampleFragmented).blocks.filter
        fun b => b.allocated).map (fun b => (b.size, b.id)) =
      (exampleFragmented.blocks.filter fun b => b.allocated).map
        (fun b => (b.size, b.id))) ∧
    (∀ b ∈ (defragment exampleFragmented).blocks.head?, b.start = 0) ∧
    Contiguous (defragment exampleFragmented).blocks ∧
    sumSizes (defragment exampleFragmented).blocks =
      sumSizes exampleFragmented.blocks ∧
    ((defragment exampleFragmented).blocks.filter
      fun b => !b.allocated).length ≤ 1 ∧
    (sumSizes (exampleFragmented.blocks.filter fun b => !b.allocated) = 0 →
      ((defragment exampleFragmented).blocks.filter
        fun b => !b.allocated).length = 0) ∧
    sumSizes ((defragment exampleFragmented).blocks.filter
        fun b => !b.allocated) =
      sumSizes (exampleFragmented.blocks.filter fun b => !b.allocated) ∧
    (defragment exampleFragmented).allocations =
      exampleFragmented.allocations) :=
  ⟨exampleFragmented_reachable,
    defragment_correct exampleFragmented exampleFragmented_reachable⟩

/-- A state with two free blocks of sizes 10 and 20 and one allocated
block of size 70 (the spec's fragmentation example shape). -/
def exampleStatsState : AllocatorState :=
  { totalSize := 100
    blocks := [⟨0, 10, false, none⟩, ⟨10, 70, true, some 2⟩,
               ⟨80, 20, false, none⟩]
    allocations := [⟨1, 10, true⟩, ⟨2, 70, false⟩, ⟨3, 20, true⟩]
    nextId := 4
    strategy := .firstFit
    lastSearchIndex := 1 }

/-- C9: `getStats` reports fragmentation 0 when the free bytes are 0
and `(free_bytes - largest_free_block) / free_bytes * 100` otherwise;
in particular two free blocks of sizes 10 and 20 give
`(30 - 20) / 30 * 100` percent and a single free block gives 0. -/
theorem getStats_fragmentation (s : AllocatorState) (h : Reachable s) :
    ((getStats s).fragmentation =
      if sumSizes (s.blocks.filter fun b => !b.allocated) = 0 then 0
      else ((sumSizes (s.blocks.filter fun b => !b.allocated) : ℚ) -
          (largestFreeBlock s.blocks : ℚ)) /
          (sumSizes (s.blocks.filter fun b => !b.allocated) : ℚ) * 100) ∧
    (getStats exampleStatsState).fragmentation =
      ((30 : ℚ) - 20) / 30 * 100 ∧
    (getStats (MemoryAllocator.init 100)).fragmentation = 0 := by
  refine ⟨?_, ?_, ?_⟩
  · show (if 0 < sumSizes (s.blocks.filter fun b => !b.allocated) then
        ((sumSizes (s.blocks.filter fun b => !b.allocated) : ℚ) -
          (largestFreeBlock s.blocks : ℚ)) /
          (sumSizes (s.blocks.filter fun b => !b.allocated) : ℚ) * 100
      else 0) = _
    by_cases hz : sumSizes (s.blocks.filter fun b => !b.allocated) = 0
    · rw [if_neg (by omega), if_pos hz]
    · rw [if_pos (by omega), if_neg hz]
  · norm_num [exampleStatsState, getStats, sumSizes, largestFreeBlock]
  · norm_num [MemoryAllocator.init, getStats, sumSizes, largestFreeBlock]

/-- Witness for C9 at the initial 100-byte state. -/
theorem getStats_fragmentation_witness :
    Reachable (MemoryAllocator.init 100) ∧
    (((getStats (MemoryAllocator.init 100)).fragmentation =
      if sumSizes ((MemoryAllocator.init 100).blocks.filter
          fun b => !b.allocated) = 0 then 0
      else ((sumSizes ((MemoryAllocator.init 100).blocks.filter
            fun b => !b.allocated) : ℚ) -
          (largestFreeBlock (MemoryAllocator.init 100).blocks : ℚ)) /
          (sumSizes ((MemoryAllocator.init 100).blocks.filter
            fun b => !b.allocated) : ℚ) * 100) ∧
    (getStats exampleStatsState).fragmentation =
      ((30 : ℚ) - 20) / 30 * 100 ∧
    (getStats (MemoryAllocator.init 100)).fragmentation = 0) :=
  ⟨Reachable.init 100 (by decide),
    getStats_fragmentation (MemoryAllocator.init 100)
      (Reachable.init 100 (by decide))⟩
